import Mathlib

/-!
# hemi-sync++ : the audio mixing engine

A shallow embedding of `src/hemi-sync++.cpp`: the chord table, the phase
accumulators, the ambient ("river") looper, the per-frame mix, the output
clamp, the control-loop derivation of the chord index, and the ADC read-out.

Memory.  `std::vector` is a `List`; every subscript `v[i]` is a checked access
in the `Option` monad, so that an out-of-bounds subscript (undefined behaviour
in C++) makes the embedded function return `none`.  The raw output pointer
`float* buffer` is a function from offsets to values.  Machine integers are
natural numbers or integers; the one place where a 32-bit wrap can occur (the
output index `i * 2` with `unsigned int i`) carries an explicit `% 2^32`.

Numbers.  The audio path is embedded twice.

* Exact arithmetic (namespace `HemiSync`): the `float` values are elements of
  an arbitrary linearly ordered field `α`; `std::sin` and `M_PI` are
  parameters `sin` and `pi`.  This is the finite fragment of the program
  without rounding: sample rate 0, infinities and NaN are outside it.
* Float arithmetic (namespace `HemiSync.Ieee`): a value is a finite number,
  `+inf`, `-inf` or NaN, with the IEEE 754 rules for the special values
  (`x / 0`, `inf - inf`, `inf * 0`, comparisons with NaN, `sin(inf)`); every
  result of type `float` goes through `toFloat`, a rounding `rnd` (a
  parameter, like `sin` and `M_PI`) followed by overflow to an infinity above
  `FLT_MAX`.  `double` sub-expressions are taken exact, and signed zeros are
  not distinguished.  The statements whose truth turns on non-finite values or
  on the rounding to `float` are made on this embedding.
-/

namespace HemiSync

/-- The `struct Chord` of the source: two frequency lists, in Hz. -/
structure Chord (α : Type) where
  leftFreqs : List α
  rightFreqs : List α

/-- The member initialiser `chords` (lines 93-111): twelve binaural chords. -/
def chords (α : Type) [Field α] : List (Chord α) :=
  [ ⟨[300], [310]⟩,
    ⟨[300], [316]⟩,
    ⟨[150], [152]⟩,
    ⟨[150], [156]⟩,
    ⟨[88.2, 176.4, 441.0, 529.2, 705.6, 882.0],
     [94.5, 183.4, 463.0, 592.2, 775.6, 922.0]⟩,
    ⟨[272.2, 332.0, 421.3, 289.4, 367.5, 442.0, 295.7, 414.7],
     [280.53, 340.03, 428.83, 297.23, 374.83, 449.83, 303.53, 422.53]⟩,
    ⟨[110.0, 250.0, 400.0], [117.83, 270.215, 438.0]⟩,
    ⟨[99.5, 202.7], [101.0, 204.2]⟩,
    ⟨[100.0, 200.0, 250.0, 300.0, 400.0, 500.0, 600.0],
     [101.5, 204.0, 254.0, 304.0, 410.0, 510.1, 604.8]⟩,
    ⟨[50.0, 400.0, 503.0, 600.0, 750.0, 900.0],
     [50.8, 404.0, 507.2, 604.0, 754.0, 904.0]⟩,
    ⟨[200.0, 250.0, 300.0, 600.0, 750.0, 900.0],
     [204.0, 254.0, 304.0, 616.2, 765.9, 916.2]⟩,
    ⟨[308.0, 500.0], [322.0, 515.0]⟩ ]

/-- The private mutable members of `class AudioSynthesizer` that the audio
path owns: the river buffer, its read cursor, and the phase accumulators. -/
structure AudioSynthesizer (α : Type) where
  riverBuffer : List α
  riverBufferPos : Nat
  leftPhases : List (List α)
  rightPhases : List (List α)

/-- The four public atomics of `class AudioSynthesizer`, as the callback
snapshots them at lines 180-183. -/
structure Controls (α : Type) where
  riverVolume : α
  selectedChord : Int
  sineVolume : α
  sampleRate : α

/-- The object as constructed, before `initialize`: empty vectors, cursor 0. -/
def AudioSynthesizer.fresh (α : Type) : AudioSynthesizer α :=
  { riverBuffer := [], riverBufferPos := 0, leftPhases := [], rightPhases := [] }

/-- The call `v.resize(n, fill)` of `std::vector`: keep the first `n`
elements, pad with `fill` up to length `n`. -/
def resize {β : Type} (v : List β) (n : Nat) (fill : β) : List β :=
  v.take n ++ List.replicate (n - v.length) fill

/-- The loop of `initialize` (lines 128-131), `k` iterations left, at index `i`. -/
def initLoop {α : Type} [Field α] :
    Nat → Nat → AudioSynthesizer α → Option (AudioSynthesizer α)
  | 0, _, st => some st
  | k + 1, i, st => do
    let ch ← (chords α)[i]?
    let l ← st.leftPhases[i]?
    let r ← st.rightPhases[i]?
    initLoop k (i + 1)
      { st with
        leftPhases := st.leftPhases.set i (resize l ch.leftFreqs.length 0)
        rightPhases := st.rightPhases.set i (resize r ch.rightFreqs.length 0) }

/-- The phase-sizing part of `AudioSynthesizer::initialize` (lines 124-131;
the source name is a reserved word here).  The audio-device set-up that
follows it in the source does not touch this state. -/
def initPhases {α : Type} [Field α] (st : AudioSynthesizer α) :
    Option (AudioSynthesizer α) :=
  initLoop (chords α).length 0
    { st with
      leftPhases := resize st.leftPhases (chords α).length []
      rightPhases := resize st.rightPhases (chords α).length [] }

/-- The function `AudioSynthesizer::loadRiverSound` (lines 154-172).  The
sound-file library is external: `file` is `none` when `sf_open` fails, and
otherwise the frame count, the channel count and the samples that
`sf_readf_float` delivers.  The buffer is resized to `frames * channels`
(new elements are 0) and the delivered samples are written from index 0. -/
def loadRiverSound {α : Type} [Field α] (file : Option (Nat × Nat × List α))
    (st : AudioSynthesizer α) : Bool × AudioSynthesizer α :=
  match file with
  | none => (false, st)
  | some (frames, channels, samples) =>
    let resized := resize st.riverBuffer (frames * channels) 0
    let read := samples.take (frames * channels)
    (true, { st with riverBuffer := read ++ resized.drop read.length })

/-- Line 186: `std::max(0, std::min(chord, static_cast<int>(chords.size() - 1)))`. -/
def clampChord (α : Type) [Field α] (chord : Int) : Nat :=
  (max 0 (min chord (((chords α).length - 1 : Nat) : Int))).toNat

/-- Lines 193-205: the river sound is added to the two running sums and the
cursor moves.  Returns the sums and the new cursor. -/
def riverStep {α : Type} [LinearOrderedField α] (st : AudioSynthesizer α)
    (riverVol leftOut rightOut : α) : Option (α × α × Nat) :=
  if st.riverBuffer.isEmpty then some (leftOut, rightOut, st.riverBufferPos)
  else
    let pos := st.riverBufferPos
    if pos < st.riverBuffer.length - 1 then do
      let l ← st.riverBuffer[pos]?
      let r ← st.riverBuffer[pos + 1]?
      let pos2 := pos + 2
      some (leftOut + l * riverVol, rightOut + r * riverVol,
        if pos2 ≥ st.riverBuffer.length then 0 else pos2)
    else some (leftOut, rightOut, pos)

/-- Lines 214-217 (and 227-230): the phase increment and the single
conditional subtraction of `2π`. -/
def advancePhase {α : Type} [LinearOrderedField α] (pi sr freq phase : α) : α :=
  let p := phase + 2 * pi * freq / sr
  if p > 2 * pi then p - 2 * pi else p

/-- One channel's partial loop (lines 208-218, and 221-231 for the right
channel): the list argument is the part of the frequency list from index `j`
on; `phases` is the whole two-level phase array of that channel and `out` the
running sum. -/
def oscLoop {α : Type} [LinearOrderedField α] (sin : α → α) (pi sineVol sr : α)
    (chord : Nat) : List α → Nat → List (List α) → α → Option (List (List α) × α)
  | [], _, phases, out => some (phases, out)
  | freq :: rest, j, phases, out => do
    let row ← phases[chord]?
    let phase ← row[j]?
    let out2 := out + sin phase * sineVol * 0.1
    oscLoop sin pi sineVol sr chord rest (j + 1)
      (phases.set chord (row.set j (advancePhase pi sr freq phase))) out2

/-- The body of the frame loop up to the clamp (lines 189-231): the pre-clip
left and right sums and the state after the frame. -/
def mixFrame {α : Type} [LinearOrderedField α] (sin : α → α) (pi : α)
    (riverVol sineVol sr : α) (chord : Nat) (st : AudioSynthesizer α) :
    Option (α × α × AudioSynthesizer α) := do
  let (l0, r0, pos) ← riverStep st riverVol 0 0
  let ch ← (chords α)[chord]?
  let (lp, l1) ← oscLoop sin pi sineVol sr chord ch.leftFreqs 0 st.leftPhases l0
  let (rp, r1) ← oscLoop sin pi sineVol sr chord ch.rightFreqs 0 st.rightPhases r0
  some (l1, r1, { st with riverBufferPos := pos, leftPhases := lp, rightPhases := rp })

/-- Lines 234-235: `std::max(-1.0f, std::min(1.0f, x))`. -/
def clip {α : Type} [LinearOrderedField α] (x : α) : α :=
  max (-1) (min 1 x)

/-- The frame loop (lines 188-239) with `k` iterations left at frame index
`i`.  The subscripts `i * 2` and `i * 2 + 1` are `unsigned int` expressions,
hence the reduction modulo `2^32`. -/
def frameLoop {α : Type} [LinearOrderedField α] (sin : α → α) (pi : α)
    (riverVol sineVol sr : α) (chord : Nat) :
    Nat → Nat → (Nat → α) → AudioSynthesizer α → Option ((Nat → α) × AudioSynthesizer α)
  | 0, _, buffer, st => some (buffer, st)
  | k + 1, i, buffer, st => do
    let (leftOut, rightOut, st2) ← mixFrame sin pi riverVol sineVol sr chord st
    let buffer1 := Function.update buffer (i * 2 % 4294967296) (clip leftOut)
    let buffer2 := Function.update buffer1 ((i * 2 + 1) % 4294967296) (clip rightOut)
    frameLoop sin pi riverVol sineVol sr chord k (i + 1) buffer2 st2

/-- The function `AudioSynthesizer::audioCallback` (lines 174-242): snapshot
the controls, clamp the chord index, run `nBufferFrames` frames.  `some`
stands for the normal return (the source returns 0). -/
def audioCallback {α : Type} [LinearOrderedField α] (sin : α → α) (pi : α)
    (ctl : Controls α) (buffer : Nat → α) (nBufferFrames : Nat)
    (st : AudioSynthesizer α) : Option ((Nat → α) × AudioSynthesizer α) :=
  frameLoop sin pi ctl.riverVolume ctl.sineVolume ctl.sampleRate
    (clampChord α ctl.selectedChord) nBufferFrames 0 buffer st

/-- The pre-clip sums of the successive frames of one invocation: the frame
loop of `audioCallback` without the clamp and the two buffer writes.  Used to
speak about what a frame holds before lines 234-235. -/
def preClipFrames {α : Type} [LinearOrderedField α] (sin : α → α) (pi : α)
    (riverVol sineVol sr : α) (chord : Nat) :
    Nat → AudioSynthesizer α → Option (List (α × α) × AudioSynthesizer α)
  | 0, st => some ([], st)
  | k + 1, st => do
    let (leftOut, rightOut, st2) ← mixFrame sin pi riverVol sineVol sr chord st
    let (fs, st3) ← preClipFrames sin pi riverVol sineVol sr chord k st2
    some ((leftOut, rightOut) :: fs, st3)

/-- Lines 234-238 for a list of pre-clip frames, starting at frame index `i`. -/
def writeFrames {α : Type} [LinearOrderedField α] :
    Nat → (Nat → α) → List (α × α) → (Nat → α)
  | _, buffer, [] => buffer
  | i, buffer, (l, r) :: fs =>
    writeFrames (i + 1)
      (Function.update (Function.update buffer (i * 2 % 4294967296) (clip l))
        ((i * 2 + 1) % 4294967296) (clip r)) fs

/-- Successive invocations by the stream driver, each with its own control
snapshot and frame count: the state is threaded through `audioCallback`, and
the pre-clip frames of all invocations are collected in order. -/
def runCallbacks {α : Type} [LinearOrderedField α] (sin : α → α) (pi : α) :
    List (Controls α × Nat) → AudioSynthesizer α →
      Option (List (α × α) × AudioSynthesizer α)
  | [], st => some ([], st)
  | (ctl, n) :: rest, st => do
    let (fs, _) ← preClipFrames sin pi ctl.riverVolume ctl.sineVolume ctl.sampleRate
      (clampChord α ctl.selectedChord) n st
    let (_, st2) ← audioCallback sin pi ctl (fun _ => 0) n st
    let (gs, st3) ← runCallbacks sin pi rest st2
    some (fs ++ gs, st3)

/-- The conversion `static_cast<int>(x)` of a float: truncation toward zero. -/
def truncToInt {α : Type} [LinearOrderedField α] [FloorRing α] (x : α) : Int :=
  if 0 ≤ x then ⌊x⌋ else ⌈x⌉

/-- The function `MCP3008::readChannel` (lines 52-72).  The outcome of the SPI
transfer is external: `ioctlResult` is the return value of `ioctl`, `rx1` and
`rx2` the received bytes `rx[1]` and `rx[2]` (`uint8_t`); the result is a
`uint16_t`. -/
def readChannel (channel : Int) (ioctlResult : Int) (rx1 rx2 : Nat) : Nat :=
  if channel < 0 ∨ channel > 7 then 0
  else if ioctlResult < 0 then 0
  else ((((rx1 % 256) &&& 3) <<< 8) + rx2 % 256) % 65536

/-- Line 297 of `main`: `static_cast<int>((knob1 / 1023.0f) * 2.99f)`. -/
def chordGroup (α : Type) [LinearOrderedField α] [FloorRing α] (knob1 : Nat) : Int :=
  truncToInt (((knob1 : α) / 1023) * 2.99)

/-- Line 300 of `main`: `static_cast<int>((knob2 / 1023.0f) * 3.99f)`. -/
def chordInGroup (α : Type) [LinearOrderedField α] [FloorRing α] (knob2 : Nat) : Int :=
  truncToInt (((knob2 : α) / 1023) * 3.99)

/-- One pass of the control loop of `main` (lines 294-306): the three stores
into the atomics; the sample rate is not touched. -/
def controlStep {α : Type} [LinearOrderedField α] [FloorRing α]
    (knob0 knob1 knob2 knob3 : Nat) (ctl : Controls α) : Controls α :=
  let group := chordGroup α knob1
  let inGroup := chordInGroup α knob2
  let chordIndex := group * 4 + inGroup
  { ctl with
    riverVolume := (knob0 : α) / 1023
    selectedChord := chordIndex
    sineVolume := (knob3 : α) / 1023 }

/-- The invariant that `initialize` establishes: one phase row per chord, as
long as that chord's frequency list, for both channels. -/
def Sized {α : Type} [Field α] (st : AudioSynthesizer α) : Prop :=
  st.leftPhases.map List.length = (chords α).map (fun c => c.leftFreqs.length) ∧
  st.rightPhases.map List.length = (chords α).map (fun c => c.rightFreqs.length)

/-- The stereo sample of a buffer at a cursor, `(0, 0)` when the cursor has no
full frame in front of it (in particular when the buffer is empty). -/
def ambientAt {α : Type} [Field α] (buf : List α) (pos : Nat) : α × α :=
  if pos + 1 < buf.length then (buf.getD pos 0, buf.getD (pos + 1) 0) else (0, 0)

/-- The cursor move of one frame on a buffer of length `len`. -/
def stepCursor (len pos : Nat) : Nat :=
  if pos + 1 < len then (if pos + 2 ≥ len then 0 else pos + 2) else pos

/-- The cursor after `k` frames. -/
def cursorAfter (len : Nat) : Nat → Nat → Nat
  | 0, pos => pos
  | k + 1, pos => cursorAfter len k (stepCursor len pos)

/-- The ambient stereo sample under the cursor of a state. -/
def ambientSample {α : Type} [Field α] (st : AudioSynthesizer α) : α × α :=
  ambientAt st.riverBuffer st.riverBufferPos

/-- The cursor of a state after one frame. -/
def nextPos {α : Type} (st : AudioSynthesizer α) : Nat :=
  stepCursor st.riverBuffer.length st.riverBufferPos

/-- The state `initialize` leaves on a freshly constructed object: every phase
0, no river sound loaded yet. -/
def startState (α : Type) [Field α] : AudioSynthesizer α :=
  { riverBuffer := []
    riverBufferPos := 0
    leftPhases := (chords α).map (fun c => c.leftFreqs.map (fun _ => 0))
    rightPhases := (chords α).map (fun c => c.rightFreqs.map (fun _ => 0)) }

/-! ## The audio path in float arithmetic -/

namespace Ieee

/-- A `float` or `double` value: a finite number or one of the three special
values of IEEE 754.  Signed zeros are not distinguished. -/
inductive Fl (α : Type) where
  | fin (x : α)
  | posInf
  | negInf
  | nan

/-- What the float arithmetic of the program depends on outside the
repository: `std::sin` on finite arguments, the constant `M_PI`, the rounding
of a finite number to the nearest `float` with unbounded exponent, and
`FLT_MAX`. -/
structure FloatEnv (α : Type) where
  sin : α → α
  pi : α
  rnd : α → α
  fltMax : α

namespace Fl

variable {α : Type} [LinearOrderedField α]

/-- Whether a value is finite. -/
def isFinite : Fl α → Bool
  | fin _ => true
  | _ => false

/-- Negation. -/
def neg : Fl α → Fl α
  | fin x => fin (-x)
  | posInf => negInf
  | negInf => posInf
  | nan => nan

/-- Addition: `inf + (-inf)` is NaN, NaN propagates. -/
def add : Fl α → Fl α → Fl α
  | fin a, fin b => fin (a + b)
  | nan, _ => nan
  | _, nan => nan
  | posInf, negInf => nan
  | negInf, posInf => nan
  | posInf, _ => posInf
  | _, posInf => posInf
  | negInf, _ => negInf
  | _, negInf => negInf

/-- Subtraction. -/
def sub (a b : Fl α) : Fl α := add a (neg b)

/-- An infinity of the sign of `x` for `x ≠ 0`, NaN for `x = 0`: the product
of `+inf` and the finite number `x`. -/
def infTimes (x : α) : Fl α :=
  if x = 0 then nan else if 0 < x then posInf else negInf

/-- Multiplication: `inf * 0` is NaN, NaN propagates. -/
def mul : Fl α → Fl α → Fl α
  | fin a, fin b => fin (a * b)
  | nan, _ => nan
  | _, nan => nan
  | posInf, fin b => infTimes b
  | fin a, posInf => infTimes a
  | negInf, fin b => neg (infTimes b)
  | fin a, negInf => neg (infTimes a)
  | posInf, posInf => posInf
  | negInf, negInf => posInf
  | posInf, negInf => negInf
  | negInf, posInf => negInf

/-- Division: a non-zero finite number over 0 is an infinity, `0 / 0` and
`inf / inf` are NaN, a finite number over an infinity is 0. -/
def div : Fl α → Fl α → Fl α
  | fin a, fin b => if b = 0 then infTimes a else fin (a / b)
  | nan, _ => nan
  | _, nan => nan
  | fin _, posInf => fin 0
  | fin _, negInf => fin 0
  | posInf, fin b => if 0 ≤ b then posInf else negInf
  | negInf, fin b => if 0 ≤ b then negInf else posInf
  | posInf, posInf => nan
  | posInf, negInf => nan
  | negInf, posInf => nan
  | negInf, negInf => nan

/-- The comparison `a < b`: false as soon as one side is NaN. -/
def lt : Fl α → Fl α → Bool
  | fin a, fin b => decide (a < b)
  | negInf, fin _ => true
  | negInf, posInf => true
  | fin _, posInf => true
  | _, _ => false

instance : Add (Fl α) := ⟨add⟩
instance : Sub (Fl α) := ⟨sub⟩
instance : Mul (Fl α) := ⟨mul⟩
instance : Div (Fl α) := ⟨div⟩

end Fl

variable {α : Type} [LinearOrderedField α]

/-- The function `std::sin`: NaN at an infinity or NaN. -/
def FloatEnv.sinF (E : FloatEnv α) : Fl α → Fl α
  | Fl.fin x => Fl.fin (E.sin x)
  | _ => Fl.nan

/-- The conversion of a result to `float`: rounding, and overflow to an
infinity when the rounded value exceeds `FLT_MAX` in magnitude. -/
def FloatEnv.toFloat (E : FloatEnv α) : Fl α → Fl α
  | Fl.fin x =>
    if E.fltMax < E.rnd x then Fl.posInf
    else if E.rnd x < -E.fltMax then Fl.negInf
    else Fl.fin (E.rnd x)
  | v => v

/-- Lines 193-205 in float arithmetic. -/
def riverStep (E : FloatEnv α) (st : AudioSynthesizer (Fl α))
    (riverVol leftOut rightOut : Fl α) : Option (Fl α × Fl α × Nat) :=
  if st.riverBuffer.isEmpty then some (leftOut, rightOut, st.riverBufferPos)
  else
    let pos := st.riverBufferPos
    if pos < st.riverBuffer.length - 1 then do
      let l ← st.riverBuffer[pos]?
      let r ← st.riverBuffer[pos + 1]?
      let pos2 := pos + 2
      some (E.toFloat (leftOut + E.toFloat (l * riverVol)),
        E.toFloat (rightOut + E.toFloat (r * riverVol)),
        if pos2 ≥ st.riverBuffer.length then 0 else pos2)
    else some (leftOut, rightOut, pos)

/-- Lines 214-217 (and 227-230) in float arithmetic: the increment
`2.0f * M_PI * freq / sr` and the sum are `double` expressions (taken exact),
the store into the `float` accumulator converts; likewise for the conditional
subtraction of `2.0f * M_PI`. -/
def advancePhase (E : FloatEnv α) (sr : Fl α) (freq : α) (phase : Fl α) : Fl α :=
  let p := E.toFloat (phase + Fl.fin 2 * Fl.fin E.pi * Fl.fin freq / sr)
  if Fl.lt (Fl.fin 2 * Fl.fin E.pi) p then E.toFloat (p - Fl.fin 2 * Fl.fin E.pi) else p

/-- One channel's partial loop (lines 208-218 and 221-231) in float
arithmetic; every product and the sum are `float` operations. -/
def oscLoop (E : FloatEnv α) (sineVol sr : Fl α) (chord : Nat) :
    List α → Nat → List (List (Fl α)) → Fl α → Option (List (List (Fl α)) × Fl α)
  | [], _, phases, out => some (phases, out)
  | freq :: rest, j, phases, out => do
    let row ← phases[chord]?
    let phase ← row[j]?
    let out2 := E.toFloat (out + E.toFloat (E.toFloat (E.sinF phase * sineVol) * Fl.fin 0.1))
    oscLoop E sineVol sr chord rest (j + 1)
      (phases.set chord (row.set j (advancePhase E sr freq phase))) out2

/-- The body of the frame loop up to the clamp (lines 189-231) in float
arithmetic. -/
def mixFrame (E : FloatEnv α) (riverVol sineVol sr : Fl α) (chord : Nat)
    (st : AudioSynthesizer (Fl α)) : Option (Fl α × Fl α × AudioSynthesizer (Fl α)) := do
  let (l0, r0, pos) ← riverStep E st riverVol (Fl.fin 0) (Fl.fin 0)
  let ch ← (chords α)[chord]?
  let (lp, l1) ← oscLoop E sineVol sr chord ch.leftFreqs 0 st.leftPhases l0
  let (rp, r1) ← oscLoop E sineVol sr chord ch.rightFreqs 0 st.rightPhases r0
  some (l1, r1, { st with riverBufferPos := pos, leftPhases := lp, rightPhases := rp })

/-- Lines 234-235: `std::min(1.0f, x)` is `(x < 1.0f) ? x : 1.0f` and
`std::max(-1.0f, m)` is `(-1.0f < m) ? m : -1.0f`; a NaN becomes 1. -/
def clip (x : Fl α) : Fl α :=
  let m := if Fl.lt x (Fl.fin 1) then x else Fl.fin 1
  if Fl.lt (Fl.fin (-1)) m then m else Fl.fin (-1)

/-- The frame loop (lines 188-239) in float arithmetic. -/
def frameLoop (E : FloatEnv α) (riverVol sineVol sr : Fl α) (chord : Nat) :
    Nat → Nat → (Nat → Fl α) → AudioSynthesizer (Fl α) →
      Option ((Nat → Fl α) × AudioSynthesizer (Fl α))
  | 0, _, buffer, st => some (buffer, st)
  | k + 1, i, buffer, st => do
    let (leftOut, rightOut, st2) ← mixFrame E riverVol sineVol sr chord st
    let buffer1 := Function.update buffer (i * 2 % 4294967296) (clip leftOut)
    let buffer2 := Function.update buffer1 ((i * 2 + 1) % 4294967296) (clip rightOut)
    frameLoop E riverVol sineVol sr chord k (i + 1) buffer2 st2

/-- The function `AudioSynthesizer::audioCallback` (lines 174-242) in float
arithmetic. -/
def audioCallback (E : FloatEnv α) (ctl : Controls (Fl α)) (buffer : Nat → Fl α)
    (nBufferFrames : Nat) (st : AudioSynthesizer (Fl α)) :
    Option ((Nat → Fl α) × AudioSynthesizer (Fl α)) :=
  frameLoop E ctl.riverVolume ctl.sineVolume ctl.sampleRate
    (clampChord α ctl.selectedChord) nBufferFrames 0 buffer st

/-- What is recorded of one produced frame: the clamped chord, the state the
frame starts from, and the two pre-clip sums. -/
structure FrameRecord (α : Type) where
  chord : Nat
  before : AudioSynthesizer (Fl α)
  left : Fl α
  right : Fl α

/-- The records of the successive frames of one invocation: the frame loop
without the clamp and the buffer writes. -/
def frameRecords (E : FloatEnv α) (riverVol sineVol sr : Fl α) (chord : Nat) :
    Nat → AudioSynthesizer (Fl α) →
      Option (List (FrameRecord α) × AudioSynthesizer (Fl α))
  | 0, st => some ([], st)
  | k + 1, st => do
    let (leftOut, rightOut, st2) ← mixFrame E riverVol sineVol sr chord st
    let (fs, st3) ← frameRecords E riverVol sineVol sr chord k st2
    some (⟨chord, st, leftOut, rightOut⟩ :: fs, st3)

/-- Lines 234-238 for a list of frame records, starting at frame index `i`. -/
def writeRecords : Nat → (Nat → Fl α) → List (FrameRecord α) → (Nat → Fl α)
  | _, buffer, [] => buffer
  | i, buffer, f :: fs =>
    writeRecords (i + 1)
      (Function.update (Function.update buffer (i * 2 % 4294967296) (clip f.left))
        ((i * 2 + 1) % 4294967296) (clip f.right)) fs

/-- Successive invocations by the stream driver in float arithmetic: the
state is threaded through `audioCallback`, the frame records of all
invocations are collected in order. -/
def runCallbacks (E : FloatEnv α) :
    List (Controls (Fl α) × Nat) → AudioSynthesizer (Fl α) →
      Option (List (FrameRecord α) × AudioSynthesizer (Fl α))
  | [], st => some ([], st)
  | (ctl, n) :: rest, st => do
    let (fs, _) ← frameRecords E ctl.riverVolume ctl.sineVolume ctl.sampleRate
      (clampChord α ctl.selectedChord) n st
    let (_, st2) ← audioCallback E ctl (fun _ => Fl.fin 0) n st
    let (gs, st3) ← runCallbacks E rest st2
    some (fs ++ gs, st3)

/-- The sizing invariant on a state of float values. -/
def Sized (st : AudioSynthesizer (Fl α)) : Prop :=
  st.leftPhases.map List.length = (chords α).map (fun c => c.leftFreqs.length) ∧
  st.rightPhases.map List.length = (chords α).map (fun c => c.rightFreqs.length)

/-- Whether all phase accumulators of a chord, left and right, are finite. -/
def phasesFinite (st : AudioSynthesizer (Fl α)) (chord : Nat) : Bool :=
  ((st.leftPhases.getD chord []) ++ (st.rightPhases.getD chord [])).all Fl.isFinite

/-- The state `initialize` leaves, as float values: every phase 0. -/
def startState (α : Type) [LinearOrderedField α] : AudioSynthesizer (Fl α) :=
  { riverBuffer := []
    riverBufferPos := 0
    leftPhases := (chords α).map (fun c => c.leftFreqs.map (fun _ => Fl.fin 0))
    rightPhases := (chords α).map (fun c => c.rightFreqs.map (fun _ => Fl.fin 0)) }

/-- The river part of one channel's sum: `out` plus sample times volume when
the cursor has a full frame in front of it (`off` is 0 for left, 1 for
right), `out` itself otherwise. -/
def riverAdd (E : FloatEnv α) (st : AudioSynthesizer (Fl α)) (riverVol out : Fl α)
    (off : Nat) : Fl α :=
  if st.riverBufferPos + 1 < st.riverBuffer.length then
    E.toFloat (out + E.toFloat (st.riverBuffer.getD (st.riverBufferPos + off) (Fl.fin 0) * riverVol))
  else out

/-- The oscillator part of one channel's sum: the partials of a phase row
added one after the other, as the loop does. -/
def oscSum (E : FloatEnv α) (sineVol out : Fl α) (row : List (Fl α)) : Fl α :=
  row.foldl
    (fun o p => E.toFloat (o + E.toFloat (E.toFloat (E.sinF p * sineVol) * Fl.fin 0.1))) out

/-- Every phase accumulator of both channels is a finite number in `[0, top]`. -/
def PhasesWithin (top : α) (st : AudioSynthesizer (Fl α)) : Prop :=
  ∀ row ∈ st.leftPhases ++ st.rightPhases, ∀ p ∈ row, ∃ x, p = Fl.fin x ∧ 0 ≤ x ∧ x ≤ top

/-- An environment for evaluation over the rationals: `M_PI` is the `double`
nearest to π, `FLT_MAX` is `(2 - 2^-23)·2^127`, the rounding is downward to
the grid of spacing `2^-21` (the spacing of `float` between 4 and 8), and
`sin` is the identity. -/
def evalEnv : FloatEnv ℚ :=
  { sin := fun x => x
    pi := 884279719003555 / 281474976710656
    rnd := fun x => (⌊x * 2097152⌋ : ℚ) / 2097152
    fltMax := 340282346638528859811704183484516925440 }

end Ieee

/-! ## Lemmas on the loop body -/

section Lemmas

variable {α : Type} [LinearOrderedField α]

theorem set_eq_self_of_getElem? {β : Type} :
    ∀ (l : List β) (i : Nat) (a : β), l[i]? = some a → l.set i a = l
  | [], _, _, _ => by simp
  | b :: t, 0, a, h => by
    simp only [List.getElem?_cons_zero, Option.some.injEq] at h
    simp [h]
  | b :: t, i + 1, a, h => by
    simp only [List.getElem?_cons_succ] at h
    simp [set_eq_self_of_getElem? t i a h]

theorem lt_length_of_getElem? {β : Type} {l : List β} {i : Nat} {a : β}
    (h : l[i]? = some a) : i < l.length := by
  by_contra hc
  rw [List.getElem?_eq_none (by omega)] at h
  cases h

theorem riverStep_eq (st : AudioSynthesizer α) (g l r : α) :
    riverStep st g l r =
      some (l + (ambientSample st).1 * g, r + (ambientSample st).2 * g, nextPos st) := by
  unfold riverStep ambientSample nextPos ambientAt stepCursor
  cases hb : st.riverBuffer with
  | nil => simp
  | cons a t =>
    simp only [List.isEmpty_cons, Bool.false_eq_true, if_false, List.length_cons,
      Nat.add_sub_cancel]
    by_cases h : st.riverBufferPos < t.length
    · have h1 : st.riverBufferPos + 1 < t.length + 1 := by omega
      have h2 : st.riverBufferPos < t.length + 1 := by omega
      simp [h, h1, h2, List.getD_eq_getElem?_getD, List.getElem?_eq_getElem]
    · have h1 : ¬ st.riverBufferPos + 1 < t.length + 1 := by omega
      simp [h, h1]

theorem oscLoop_eq (sin : α → α) (pi sineVol sr : α) (chord : Nat) :
    ∀ (freqs pre suf : List α) (phases : List (List α)) (out : α),
      suf.length = freqs.length → phases[chord]? = some (pre ++ suf) →
      oscLoop sin pi sineVol sr chord freqs pre.length phases out =
        some (phases.set chord (pre ++ List.zipWith (advancePhase pi sr) freqs suf),
          out + sineVol * 0.1 * (suf.map sin).sum) := by
  intro freqs
  induction freqs with
  | nil =>
    intro pre suf phases out hlen hrow
    have hs : suf = [] := List.length_eq_zero.mp (by simpa using hlen)
    subst hs
    simp only [oscLoop, List.zipWith_nil_left, List.map_nil, List.sum_nil, mul_zero, add_zero]
    rw [set_eq_self_of_getElem? phases chord _ hrow]
  | cons f rest ih =>
    intro pre suf phases out hlen hrow
    cases suf with
    | nil => simp at hlen
    | cons p suf2 =>
      have hc : chord < phases.length := lt_length_of_getElem? hrow
      have hlen2 : suf2.length = rest.length := by simpa using hlen
      have hj : (pre ++ p :: suf2)[pre.length]? = some p := by
        rw [List.getElem?_append_right (le_refl _)]
        simp
      have hset : (pre ++ p :: suf2).set pre.length (advancePhase pi sr f p) =
          (pre ++ [advancePhase pi sr f p]) ++ suf2 := by
        rw [List.set_append_right _ _ (le_refl _)]
        simp
      have hrow2 : (phases.set chord ((pre ++ [advancePhase pi sr f p]) ++ suf2))[chord]? =
          some ((pre ++ [advancePhase pi sr f p]) ++ suf2) := by
        rw [List.getElem?_set]
        simp [hc]
      have hstep := ih (pre ++ [advancePhase pi sr f p]) suf2
        (phases.set chord ((pre ++ [advancePhase pi sr f p]) ++ suf2))
        (out + sin p * sineVol * 0.1) hlen2 hrow2
      simp only [List.length_append, List.length_singleton] at hstep
      rw [oscLoop]
      simp only [hrow, hj, Option.bind_eq_bind, Option.some_bind, hset]
      rw [hstep, List.set_set]
      simp only [List.zipWith_cons_cons, List.map_cons, List.sum_cons, List.append_assoc,
        List.singleton_append, Option.some.injEq, Prod.mk.injEq, true_and]
      ring

theorem Sized.rows {st : AudioSynthesizer α} (hs : Sized st) {c : Nat} {ch : Chord α}
    (hch : (chords α)[c]? = some ch) :
    ∃ lrow rrow, st.leftPhases[c]? = some lrow ∧ lrow.length = ch.leftFreqs.length ∧
      st.rightPhases[c]? = some rrow ∧ rrow.length = ch.rightFreqs.length := by
  have h1 := congrArg (fun l => l[c]?) hs.1
  have h2 := congrArg (fun l => l[c]?) hs.2
  simp only [List.getElem?_map, hch, Option.map_some'] at h1 h2
  cases hl : st.leftPhases[c]? with
  | none => rw [hl] at h1; cases h1
  | some lrow =>
    cases hr : st.rightPhases[c]? with
    | none => rw [hr] at h2; cases h2
    | some rrow =>
      rw [hl] at h1
      rw [hr] at h2
      exact ⟨lrow, rrow, rfl, by simpa using h1, rfl, by simpa using h2⟩

theorem chords_getElem?_of_lt {c : Nat} (hc : c < (chords α).length) :
    ∃ ch, (chords α)[c]? = some ch :=
  ⟨(chords α)[c], List.getElem?_eq_getElem hc⟩

theorem mixFrame_eq (sin : α → α) (pi g sv sr : α) {c : Nat} {st : AudioSynthesizer α}
    {ch : Chord α} {lrow rrow : List α} (hch : (chords α)[c]? = some ch)
    (hl : st.leftPhases[c]? = some lrow) (hll : lrow.length = ch.leftFreqs.length)
    (hr : st.rightPhases[c]? = some rrow) (hrl : rrow.length = ch.rightFreqs.length) :
    mixFrame sin pi g sv sr c st =
      some ((ambientSample st).1 * g + sv * 0.1 * (lrow.map sin).sum,
        (ambientSample st).2 * g + sv * 0.1 * (rrow.map sin).sum,
        { st with
          riverBufferPos := nextPos st
          leftPhases := st.leftPhases.set c (List.zipWith (advancePhase pi sr) ch.leftFreqs lrow)
          rightPhases :=
            st.rightPhases.set c (List.zipWith (advancePhase pi sr) ch.rightFreqs rrow) }) := by
  have hL := oscLoop_eq sin pi sv sr c ch.leftFreqs [] lrow st.leftPhases
    (0 + (ambientSample st).1 * g) hll (by simpa using hl)
  have hR := oscLoop_eq sin pi sv sr c ch.rightFreqs [] rrow st.rightPhases
    (0 + (ambientSample st).2 * g) hrl (by simpa using hr)
  simp only [List.length_nil, List.nil_append, zero_add] at hL hR
  simp only [mixFrame, riverStep_eq, hch, Option.bind_eq_bind, Option.some_bind, hL, hR,
    zero_add]

theorem sized_set {st : AudioSynthesizer α} (hs : Sized st) {c : Nat} {ch : Chord α}
    {lnew rnew : List α} (hch : (chords α)[c]? = some ch)
    (hl : lnew.length = ch.leftFreqs.length) (hr : rnew.length = ch.rightFreqs.length)
    (pos : Nat) :
    Sized { st with
      riverBufferPos := pos
      leftPhases := st.leftPhases.set c lnew
      rightPhases := st.rightPhases.set c rnew } := by
  constructor
  · show (st.leftPhases.set c lnew).map List.length = _
    rw [List.map_set, hs.1, hl]
    exact set_eq_self_of_getElem? _ _ _ (by simp [hch])
  · show (st.rightPhases.set c rnew).map List.length = _
    rw [List.map_set, hs.2, hr]
    exact set_eq_self_of_getElem? _ _ _ (by simp [hch])

theorem length_zipWith_advance (pi sr : α) {freqs row : List α}
    (h : row.length = freqs.length) :
    (List.zipWith (advancePhase pi sr) freqs row).length = freqs.length := by
  simp [h]

/-- Under the sizing invariant one frame always completes; its result in
closed form. -/
theorem mixFrame_sized (sin : α → α) (pi g sv sr : α) {c : Nat} (hc : c < (chords α).length)
    {st : AudioSynthesizer α} (hs : Sized st) :
    ∃ ch lrow rrow, (chords α)[c]? = some ch ∧
      st.leftPhases[c]? = some lrow ∧ lrow.length = ch.leftFreqs.length ∧
      st.rightPhases[c]? = some rrow ∧ rrow.length = ch.rightFreqs.length ∧
      mixFrame sin pi g sv sr c st =
        some ((ambientSample st).1 * g + sv * 0.1 * (lrow.map sin).sum,
          (ambientSample st).2 * g + sv * 0.1 * (rrow.map sin).sum,
          { st with
            riverBufferPos := nextPos st
            leftPhases :=
              st.leftPhases.set c (List.zipWith (advancePhase pi sr) ch.leftFreqs lrow)
            rightPhases :=
              st.rightPhases.set c (List.zipWith (advancePhase pi sr) ch.rightFreqs rrow) }) ∧
      Sized { st with
            riverBufferPos := nextPos st
            leftPhases :=
              st.leftPhases.set c (List.zipWith (advancePhase pi sr) ch.leftFreqs lrow)
            rightPhases :=
              st.rightPhases.set c (List.zipWith (advancePhase pi sr) ch.rightFreqs rrow) } := by
  obtain ⟨ch, hch⟩ := chords_getElem?_of_lt (α := α) hc
  obtain ⟨lrow, rrow, hl, hll, hr, hrl⟩ := hs.rows hch
  exact ⟨ch, lrow, rrow, hch, hl, hll, hr, hrl, mixFrame_eq sin pi g sv sr hch hl hll hr hrl,
    sized_set hs hch (length_zipWith_advance pi sr hll) (length_zipWith_advance pi sr hrl) _⟩

theorem clampChord_lt (c : Int) : clampChord α c < (chords α).length := by
  have hlen : (chords α).length = 12 := rfl
  unfold clampChord
  rw [hlen]
  omega

/-- The frame loop is the pre-clip loop followed by the clamp and the writes. -/
theorem frameLoop_eq_preClip (sin : α → α) (pi g sv sr : α) (c : Nat) :
    ∀ (k i : Nat) (buffer : Nat → α) (st : AudioSynthesizer α),
      frameLoop sin pi g sv sr c k i buffer st =
        (preClipFrames sin pi g sv sr c k st).map
          (fun p => (writeFrames i buffer p.1, p.2)) := by
  intro k
  induction k with
  | zero => intro i buffer st; simp [frameLoop, preClipFrames, writeFrames]
  | succ k ih =>
    intro i buffer st
    rw [frameLoop, preClipFrames]
    cases hm : mixFrame sin pi g sv sr c st with
    | none => simp
    | some res =>
      obtain ⟨l, r, st2⟩ := res
      simp only [Option.bind_eq_bind, Option.some_bind, ih]
      cases hp : preClipFrames sin pi g sv sr c k st2 with
      | none => simp
      | some q => simp [writeFrames]

/-- Induction principle for the pre-clip loop: an invariant of the frame body
that makes every frame complete makes the loop complete, is kept, and every
produced frame has the property the body guarantees. -/
theorem preClipFrames_inv (sin : α → α) (pi g sv sr : α) (c : Nat)
    (Inv : AudioSynthesizer α → Prop) (P : α × α → Prop)
    (hstep : ∀ s, Inv s → ∃ l r s2, mixFrame sin pi g sv sr c s = some (l, r, s2) ∧
      Inv s2 ∧ P (l, r)) :
    ∀ (k : Nat) (st : AudioSynthesizer α), Inv st →
      ∃ fs st2, preClipFrames sin pi g sv sr c k st = some (fs, st2) ∧ fs.length = k ∧
        Inv st2 ∧ ∀ f ∈ fs, P f := by
  intro k
  induction k with
  | zero => intro st h; exact ⟨[], st, rfl, rfl, h, by simp⟩
  | succ k ih =>
    intro st h
    obtain ⟨l, r, s2, hm, hi, hp⟩ := hstep st h
    obtain ⟨fs, st3, hfs, hlen, hi3, hall⟩ := ih s2 hi
    refine ⟨(l, r) :: fs, st3, ?_, by simp [hlen], hi3, ?_⟩
    · rw [preClipFrames]
      simp [hm, hfs]
    · intro f hf
      rcases List.mem_cons.mp hf with h1 | h1
      · rw [h1]; exact hp
      · exact hall f h1

theorem clip_bounds (x : α) : -1 ≤ clip x ∧ clip x ≤ 1 := by
  unfold clip
  constructor
  · exact le_max_left _ _
  · exact max_le (by norm_num) (min_le_left _ _)

theorem clip_of_mem {x : α} (h1 : -1 ≤ x) (h2 : x ≤ 1) : clip x = x := by
  unfold clip
  rw [min_eq_right h2, max_eq_right h1]

/-- A position that no frame of the list addresses keeps its content. -/
theorem writeFrames_untouched :
    ∀ (fs : List (α × α)) (i : Nat) (buffer : Nat → α) (idx : Nat),
      (∀ j, j < fs.length →
        idx ≠ (i + j) * 2 % 4294967296 ∧ idx ≠ ((i + j) * 2 + 1) % 4294967296) →
      writeFrames i buffer fs idx = buffer idx := by
  intro fs
  induction fs with
  | nil => intro i buffer idx _; rfl
  | cons f fs ih =>
    intro i buffer idx h
    obtain ⟨l, r⟩ := f
    rw [writeFrames, ih]
    · have h0 := h 0 (by simp)
      simp only [add_zero] at h0
      rw [Function.update_noteq h0.2, Function.update_noteq h0.1]
    · intro j hj
      have := h (j + 1) (by simpa using hj)
      have e : i + (j + 1) = i + 1 + j := by omega
      rw [e] at this
      exact this

/-- Every write stays below `2^32`. -/
theorem writeFrames_high (fs : List (α × α)) (i : Nat) (buffer : Nat → α) (idx : Nat)
    (h : 4294967296 ≤ idx) : writeFrames i buffer fs idx = buffer idx := by
  apply writeFrames_untouched
  intro j _
  have h1 : (i + j) * 2 % 4294967296 < 4294967296 := Nat.mod_lt _ (by norm_num)
  have h2 : ((i + j) * 2 + 1) % 4294967296 < 4294967296 := Nat.mod_lt _ (by norm_num)
  omega

/-- Without wrap-around (at most `2^31` frames in all) frame `j` of the list
lands at positions `2(i+j)` and `2(i+j)+1`. -/
theorem writeFrames_exact :
    ∀ (fs : List (α × α)) (i : Nat) (buffer : Nat → α),
      i + fs.length ≤ 2147483648 →
      ∀ j l r, fs[j]? = some (l, r) →
        writeFrames i buffer fs (2 * (i + j)) = clip l ∧
        writeFrames i buffer fs (2 * (i + j) + 1) = clip r := by
  intro fs
  induction fs with
  | nil => intro i buffer _ j l r h; simp at h
  | cons f fs ih =>
    intro i buffer hlen j l r h
    obtain ⟨l0, r0⟩ := f
    simp only [List.length_cons] at hlen
    rw [writeFrames]
    cases j with
    | zero =>
      simp only [List.getElem?_cons_zero, Option.some.injEq, Prod.mk.injEq] at h
      obtain ⟨hl, hr⟩ := h
      subst hl
      subst hr
      have m0 : i * 2 % 4294967296 = 2 * i := by omega
      have m1 : (i * 2 + 1) % 4294967296 = 2 * i + 1 := by omega
      rw [m0, m1]
      simp only [add_zero]
      constructor
      · rw [writeFrames_untouched]
        · rw [Function.update_noteq (by omega), Function.update_same]
        · intro k hk
          omega
      · rw [writeFrames_untouched]
        · rw [Function.update_same]
        · intro k hk
          omega
    | succ j =>
      simp only [List.getElem?_cons_succ] at h
      have := ih (i + 1) (Function.update (Function.update buffer (i * 2 % 4294967296) (clip l0))
        ((i * 2 + 1) % 4294967296) (clip r0)) (by omega) j l r h
      have e : i + (j + 1) = i + 1 + j := by omega
      rw [e]
      exact this

theorem audioCallback_eq_preClip (sin : α → α) (pi : α) (ctl : Controls α)
    (buffer : Nat → α) (n : Nat) (st : AudioSynthesizer α) :
    audioCallback sin pi ctl buffer n st =
      (preClipFrames sin pi ctl.riverVolume ctl.sineVolume ctl.sampleRate
        (clampChord α ctl.selectedChord) n st).map
        (fun p => (writeFrames 0 buffer p.1, p.2)) :=
  frameLoop_eq_preClip _ _ _ _ _ _ _ _ _ _

theorem initPhases_fresh : initPhases (AudioSynthesizer.fresh α) = some (startState α) := by
  simp [initPhases, initLoop, chords, resize, AudioSynthesizer.fresh, startState,
    List.replicate]

theorem sized_startState : Sized (startState α) := by
  constructor <;> simp [startState, List.map_map, Function.comp_def]

theorem nextPos_le {β : Type} (st : AudioSynthesizer β)
    (h : st.riverBufferPos ≤ st.riverBuffer.length) : nextPos st ≤ st.riverBuffer.length := by
  unfold nextPos stepCursor
  split_ifs <;> omega

/-- Under the sizing invariant the pre-clip loop completes for every frame
count and keeps the invariant, the buffer, and the cursor bound. -/
theorem preClipFrames_sized (sin : α → α) (pi g sv sr : α) {c : Nat}
    (hc : c < (chords α).length) (k : Nat) (st : AudioSynthesizer α) (hs : Sized st) :
    ∃ fs st2, preClipFrames sin pi g sv sr c k st = some (fs, st2) ∧ fs.length = k ∧
      Sized st2 ∧ st2.riverBuffer = st.riverBuffer ∧
      (st.riverBufferPos ≤ st.riverBuffer.length →
        st2.riverBufferPos ≤ st2.riverBuffer.length) := by
  obtain ⟨fs, st2, h, hl, ⟨h1, h2, h3⟩, _⟩ := preClipFrames_inv sin pi g sv sr c
    (fun s => Sized s ∧ s.riverBuffer = st.riverBuffer ∧
      (st.riverBufferPos ≤ st.riverBuffer.length → s.riverBufferPos ≤ s.riverBuffer.length))
    (fun _ => True)
    (by
      intro s hi
      obtain ⟨ch, lrow, rrow, _, _, _, _, _, hm, hsz⟩ := mixFrame_sized sin pi g sv sr hc hi.1
      refine ⟨_, _, _, hm, ⟨hsz, hi.2.1, ?_⟩, trivial⟩
      intro h0
      exact nextPos_le s (hi.2.2 h0))
    k st ⟨hs, rfl, fun h => h⟩
  exact ⟨fs, st2, h, hl, h1, h2, fun h0 => h3 h0⟩

/-- Under the sizing invariant the callback returns, with the result of the
pre-clip loop written out. -/
theorem audioCallback_sized (sin : α → α) (pi : α) (ctl : Controls α) (buffer : Nat → α)
    (n : Nat) (st : AudioSynthesizer α) (hs : Sized st) :
    ∃ out st2, audioCallback sin pi ctl buffer n st = some (out, st2) ∧
      Sized st2 ∧ st2.riverBuffer = st.riverBuffer ∧
      (st.riverBufferPos ≤ st.riverBuffer.length →
        st2.riverBufferPos ≤ st2.riverBuffer.length) := by
  obtain ⟨fs, st2, h, _, h1, h2, h3⟩ := preClipFrames_sized sin pi ctl.riverVolume
    ctl.sineVolume ctl.sampleRate (clampChord_lt (α := α) ctl.selectedChord) n st hs
  exact ⟨writeFrames 0 buffer fs, st2, by rw [audioCallback_eq_preClip, h]; rfl, h1, h2, h3⟩

/-- The invocation runner in terms of the pre-clip loop alone. -/
theorem runCallbacks_cons (sin : α → α) (pi : α) (ctl : Controls α) (n : Nat)
    (rest : List (Controls α × Nat)) (st : AudioSynthesizer α) :
    runCallbacks sin pi ((ctl, n) :: rest) st =
      (preClipFrames sin pi ctl.riverVolume ctl.sineVolume ctl.sampleRate
        (clampChord α ctl.selectedChord) n st).bind
        (fun p => (runCallbacks sin pi rest p.2).bind
          (fun q => some (p.1 ++ q.1, q.2))) := by
  rw [runCallbacks, audioCallback_eq_preClip]
  cases preClipFrames sin pi ctl.riverVolume ctl.sineVolume ctl.sampleRate
    (clampChord α ctl.selectedChord) n st with
  | none => rfl
  | some p => rfl

theorem chords_freq_bounds :
    ∀ ch ∈ chords α, (∀ f ∈ ch.leftFreqs, 0 ≤ f ∧ f ≤ 922) ∧
      (∀ f ∈ ch.rightFreqs, 0 ≤ f ∧ f ≤ 922) := by
  simp only [chords, List.forall_mem_cons]
  norm_num

theorem cursorAfter_add (len : Nat) : ∀ (a b pos : Nat),
    cursorAfter len (a + b) pos = cursorAfter len b (cursorAfter len a pos) := by
  intro a
  induction a with
  | zero => intro b pos; simp [cursorAfter]
  | succ a ih =>
    intro b pos
    have e : a + 1 + b = (a + b) + 1 := by omega
    rw [e, cursorAfter, cursorAfter, ih]

/-- With the sine volume 0 one frame is the ambient sample times the river
volume, and the cursor makes one step. -/
theorem mixFrame_river (sin : α → α) (pi g sr : α) {c : Nat} (hc : c < (chords α).length)
    {st : AudioSynthesizer α} (hs : Sized st) :
    ∃ s2, mixFrame sin pi g 0 sr c st =
        some ((ambientSample st).1 * g, (ambientSample st).2 * g, s2) ∧
      Sized s2 ∧ s2.riverBuffer = st.riverBuffer ∧ s2.riverBufferPos = nextPos st := by
  obtain ⟨ch, lrow, rrow, _, _, _, _, _, hm, hsz⟩ := mixFrame_sized sin pi g 0 sr hc hs
  refine ⟨_, ?_, hsz, rfl, rfl⟩
  rw [hm]
  simp

/-- With the sine volume 0 the pre-clip frames of one invocation are the
ambient samples along the cursor sequence. -/
theorem preClipFrames_river (sin : α → α) (pi g sr : α) {c : Nat}
    (hc : c < (chords α).length) :
    ∀ (k : Nat) (st : AudioSynthesizer α), Sized st →
      ∃ fs st2, preClipFrames sin pi g 0 sr c k st = some (fs, st2) ∧ fs.length = k ∧
        Sized st2 ∧ st2.riverBuffer = st.riverBuffer ∧
        st2.riverBufferPos = cursorAfter st.riverBuffer.length k st.riverBufferPos ∧
        ∀ i, i < k → fs[i]? = some
          ((ambientAt st.riverBuffer
              (cursorAfter st.riverBuffer.length i st.riverBufferPos)).1 * g,
            (ambientAt st.riverBuffer
              (cursorAfter st.riverBuffer.length i st.riverBufferPos)).2 * g) := by
  intro k
  induction k with
  | zero => intro st hs; exact ⟨[], st, rfl, rfl, hs, rfl, rfl, by intro i hi; omega⟩
  | succ k ih =>
    intro st hs
    obtain ⟨s2, hm, hs2, hb2, hp2⟩ := mixFrame_river sin pi g sr hc hs
    obtain ⟨fs, st3, hfs, hlen, hs3, hb3, hp3, hall⟩ := ih s2 hs2
    refine ⟨((ambientSample st).1 * g, (ambientSample st).2 * g) :: fs, st3, ?_,
      by simp [hlen], hs3, by rw [hb3, hb2], ?_, ?_⟩
    · rw [preClipFrames]
      simp only [hm, hfs, Option.bind_eq_bind, Option.some_bind]
    · rw [hp3, hb2, hp2, cursorAfter]
      rfl
    · intro i hi
      cases i with
      | zero => simp [cursorAfter, ambientSample]
      | succ i =>
        rw [List.getElem?_cons_succ, hall i (by omega), hb2, hp2, cursorAfter]
        rfl

/-- The same along a list of invocations that all have sine volume 0 and
river volume `g`. -/
theorem runCallbacks_river (sin : α → α) (pi g : α) :
    ∀ (calls : List (Controls α × Nat)),
      (∀ c ∈ calls, c.1.riverVolume = g ∧ c.1.sineVolume = 0) →
      ∀ (st : AudioSynthesizer α), Sized st →
        ∃ fs st2, runCallbacks sin pi calls st = some (fs, st2) ∧
          fs.length = (calls.map (fun c => c.2)).sum ∧
          st2.riverBuffer = st.riverBuffer ∧
          st2.riverBufferPos = cursorAfter st.riverBuffer.length
            (calls.map (fun c => c.2)).sum st.riverBufferPos ∧
          ∀ i, i < (calls.map (fun c => c.2)).sum → fs[i]? = some
            ((ambientAt st.riverBuffer
                (cursorAfter st.riverBuffer.length i st.riverBufferPos)).1 * g,
              (ambientAt st.riverBuffer
                (cursorAfter st.riverBuffer.length i st.riverBufferPos)).2 * g) := by
  intro calls
  induction calls with
  | nil => intro _ st _; exact ⟨[], st, rfl, rfl, rfl, rfl, by intro i hi; simp at hi⟩
  | cons c rest ih =>
    intro hctl st hs
    obtain ⟨ctl, n⟩ := c
    have hc := hctl (ctl, n) (by simp)
    simp only at hc
    obtain ⟨fs, st2, hfs, hlen, hs2, hb2, hp2, hall⟩ := preClipFrames_river sin pi g
      ctl.sampleRate (clampChord_lt (α := α) ctl.selectedChord) n st hs
    obtain ⟨gs, st3, hgs, hlen3, hb3, hp3, hall3⟩ := ih
      (fun c hc => hctl c (List.mem_cons_of_mem _ hc)) st2 hs2
    refine ⟨fs ++ gs, st3, ?_, by simp [hlen, hlen3], by rw [hb3, hb2], ?_, ?_⟩
    · rw [runCallbacks_cons, hc.1, hc.2, hfs]
      simp [hgs]
    · rw [hp3, hb2, hp2]
      simp only [List.map_cons, List.sum_cons]
      rw [cursorAfter_add]
    · intro i hi
      simp only [List.map_cons, List.sum_cons] at hi
      by_cases h : i < n
      · rw [List.getElem?_append_left (by omega)]
        exact hall i h
      · rw [List.getElem?_append_right (by omega), hlen, hall3 (i - n) (by omega), hb2, hp2,
          ← cursorAfter_add]
        have e : n + (i - n) = i := by omega
        rw [e]

/-- On a buffer of `F` whole frames the cursor runs through them cyclically. -/
theorem cursorAfter_even {F : Nat} (hF : 0 < F) : ∀ (k j : Nat),
    cursorAfter (2 * F) k (2 * (j % F)) = 2 * ((j + k) % F) := by
  intro k
  induction k with
  | zero => intro j; rfl
  | succ k ih =>
    intro j
    have hj : j % F < F := Nat.mod_lt _ hF
    have hmod : (j + 1) % F = (j % F + 1) % F := (Nat.mod_add_mod j F 1).symm
    have hstep : stepCursor (2 * F) (2 * (j % F)) = 2 * ((j + 1) % F) := by
      rw [hmod]
      generalize j % F = m at hj
      unfold stepCursor
      by_cases hw : m + 1 = F
      · rw [hw, Nat.mod_self, if_pos (by omega), if_pos (by omega)]
      · rw [Nat.mod_eq_of_lt (show m + 1 < F by omega), if_pos (by omega), if_neg (by omega)]
        omega
    rw [cursorAfter, hstep, ih]
    congr 2
    omega

theorem cursorAfter_odd (F : Nat) : ∀ (k j : Nat), j ≤ F →
    cursorAfter (2 * F + 1) k (2 * j) = 2 * min (j + k) F := by
  intro k
  induction k with
  | zero => intro j hj; simp [cursorAfter, Nat.min_eq_left hj]
  | succ k ih =>
    intro j hj
    rw [cursorAfter]
    by_cases h : j < F
    · have hstep : stepCursor (2 * F + 1) (2 * j) = 2 * (j + 1) := by
        unfold stepCursor
        rw [if_pos (by omega), if_neg (by omega)]
        omega
      rw [hstep, ih (j + 1) (by omega)]
      congr 2
      omega
    · have hstep : stepCursor (2 * F + 1) (2 * j) = 2 * j := by
        unfold stepCursor
        rw [if_neg (by omega)]
      rw [hstep, ih j hj]
      omega

theorem readChannel_le (channel ioctlResult : Int) (rx1 rx2 : Nat) :
    readChannel channel ioctlResult rx1 rx2 ≤ 1023 := by
  unfold readChannel
  split_ifs
  · omega
  · omega
  · have h1 : (rx1 % 256) &&& 3 ≤ 3 := Nat.and_le_right
    have h2 : rx2 % 256 < 256 := Nat.mod_lt _ (by norm_num)
    rw [Nat.shiftLeft_eq]
    have : (((rx1 % 256) &&& 3) * 2 ^ 8 + rx2 % 256) % 65536 ≤
        ((rx1 % 256) &&& 3) * 2 ^ 8 + rx2 % 256 := Nat.mod_le _ _
    omega

theorem truncToInt_scaled [FloorRing α] (knob : Nat) (hk : knob ≤ 1023) (s : α) (hs0 : 0 ≤ s)
    (m : Int) (hsm : s < (m : α)) :
    truncToInt (((knob : α) / 1023) * s) = ⌊((knob : α) / 1023) * s⌋ ∧
      0 ≤ truncToInt (((knob : α) / 1023) * s) ∧ truncToInt (((knob : α) / 1023) * s) < m := by
  have hk0 : (0 : α) ≤ (knob : α) / 1023 := by positivity
  have hk1 : (knob : α) / 1023 ≤ 1 := by
    rw [div_le_one (by norm_num)]
    exact_mod_cast hk
  have hx0 : 0 ≤ ((knob : α) / 1023) * s := mul_nonneg hk0 hs0
  have hx1 : ((knob : α) / 1023) * s < (m : α) := by
    have : ((knob : α) / 1023) * s ≤ 1 * s := mul_le_mul_of_nonneg_right hk1 hs0
    linarith
  have ht : truncToInt (((knob : α) / 1023) * s) = ⌊((knob : α) / 1023) * s⌋ := by
    unfold truncToInt
    rw [if_pos hx0]
  rw [ht]
  exact ⟨rfl, Int.floor_nonneg.mpr hx0, Int.floor_lt.mpr hx1⟩

end Lemmas

/-! ## Lemmas on the float embedding -/

namespace Ieee

section FloatLemmas

variable {α : Type} [LinearOrderedField α]

theorem fl_add_def (a b : Fl α) : a + b = Fl.add a b := rfl

theorem fl_sub_def (a b : Fl α) : a - b = Fl.sub a b := rfl

theorem fl_mul_def (a b : Fl α) : a * b = Fl.mul a b := rfl

theorem fl_div_def (a b : Fl α) : a / b = Fl.div a b := rfl

theorem fl_fin_add_fin (a b : α) : (Fl.fin a + Fl.fin b : Fl α) = Fl.fin (a + b) := rfl

theorem fl_fin_mul_fin (a b : α) : (Fl.fin a * Fl.fin b : Fl α) = Fl.fin (a * b) := rfl

theorem fl_fin_sub_fin (a b : α) : (Fl.fin a - Fl.fin b : Fl α) = Fl.fin (a - b) := by
  show Fl.add (Fl.fin a) (Fl.neg (Fl.fin b)) = _
  simp [Fl.add, Fl.neg, sub_eq_add_neg]

theorem fl_fin_div_fin {a b : α} (hb : b ≠ 0) : (Fl.fin a / Fl.fin b : Fl α) = Fl.fin (a / b) := by
  show Fl.div (Fl.fin a) (Fl.fin b) = _
  simp [Fl.div, hb]

theorem fl_zero_add (y : Fl α) : Fl.fin 0 + y = y := by
  cases y <;> simp [fl_add_def, Fl.add]

theorem fl_add_zero (y : Fl α) : y + Fl.fin 0 = y := by
  cases y <;> simp [fl_add_def, Fl.add]

theorem fl_nan_mul (y : Fl α) : (Fl.nan : Fl α) * y = Fl.nan := by
  cases y <;> simp [fl_mul_def, Fl.mul]

theorem fl_add_nan (y : Fl α) : y + (Fl.nan : Fl α) = Fl.nan := by
  cases y <;> simp [fl_add_def, Fl.add]

theorem fl_nan_add (y : Fl α) : (Fl.nan : Fl α) + y = Fl.nan := by
  cases y <;> simp [fl_add_def, Fl.add]

theorem fl_mul_comm (a b : Fl α) : a * b = b * a := by
  cases a <;> cases b <;> simp [fl_mul_def, Fl.mul, mul_comm]

theorem toFloat_nan (E : FloatEnv α) : E.toFloat Fl.nan = Fl.nan := rfl

theorem toFloat_posInf (E : FloatEnv α) : E.toFloat Fl.posInf = Fl.posInf := rfl

theorem toFloat_negInf (E : FloatEnv α) : E.toFloat Fl.negInf = Fl.negInf := rfl

theorem toFloat_fin (E : FloatEnv α) {x : α} (h1 : E.rnd x ≤ E.fltMax)
    (h2 : -E.fltMax ≤ E.rnd x) : E.toFloat (Fl.fin x) = Fl.fin (E.rnd x) := by
  simp [FloatEnv.toFloat, not_lt.mpr h1, not_lt.mpr h2]

theorem toFloat_zero (E : FloatEnv α) (hr0 : E.rnd 0 = 0) (hmax : 0 ≤ E.fltMax) :
    E.toFloat (Fl.fin 0) = Fl.fin 0 := by
  rw [toFloat_fin E (by rw [hr0]; exact hmax) (by rw [hr0]; linarith), hr0]

theorem toFloat_idem (E : FloatEnv α) (hidem : ∀ x, E.rnd (E.rnd x) = E.rnd x) (v : Fl α) :
    E.toFloat (E.toFloat v) = E.toFloat v := by
  cases v with
  | fin x =>
    by_cases h1 : E.fltMax < E.rnd x
    · simp [FloatEnv.toFloat, h1]
    · by_cases h2 : E.rnd x < -E.fltMax
      · simp [FloatEnv.toFloat, h1, h2]
      · simp [FloatEnv.toFloat, h1, h2, hidem]
  | posInf => rfl
  | negInf => rfl
  | nan => rfl

theorem clip_fin_zero : clip (Fl.fin (0 : α)) = Fl.fin 0 := by
  simp [clip, Fl.lt]

theorem clip_nan : clip (Fl.nan : Fl α) = Fl.fin 1 := by
  simp [clip, Fl.lt]

theorem isFinite_iff (p : Fl α) : Fl.isFinite p = true ↔ ∃ x, p = Fl.fin x := by
  cases p <;> simp [Fl.isFinite]

theorem oscSum_cons (E : FloatEnv α) (sv out p : Fl α) (rest : List (Fl α)) :
    oscSum E sv out (p :: rest) =
      oscSum E sv (E.toFloat (out + E.toFloat (E.toFloat (E.sinF p * sv) * Fl.fin 0.1))) rest :=
  rfl

/-- With sine volume 0 a finite phase adds nothing to a sum that is already a
`float` value. -/
theorem oscSum_silent (E : FloatEnv α) (hr0 : E.rnd 0 = 0) (hmax : 0 ≤ E.fltMax) :
    ∀ (row : List (Fl α)) (out : Fl α), (∀ p ∈ row, Fl.isFinite p = true) →
      E.toFloat out = out → oscSum E (Fl.fin 0) out row = out := by
  intro row
  induction row with
  | nil => intro out _ _; rfl
  | cons p rest ih =>
    intro out hfin hout
    obtain ⟨x, hx⟩ := (isFinite_iff p).mp (hfin p (by simp))
    have hstep : E.toFloat (out + E.toFloat (E.toFloat (E.sinF p * Fl.fin 0) * Fl.fin 0.1)) =
        out := by
      rw [hx]
      simp only [FloatEnv.sinF, fl_fin_mul_fin, mul_zero, toFloat_zero E hr0 hmax, zero_mul,
        fl_add_zero, hout]
    rw [oscSum_cons, hstep]
    exact ih out (fun q hq => hfin q (List.mem_cons_of_mem _ hq)) hout

/-- A sum that is NaN stays NaN. -/
theorem oscSum_nan (E : FloatEnv α) (sv : Fl α) :
    ∀ (row : List (Fl α)), oscSum E sv Fl.nan row = Fl.nan := by
  intro row
  induction row with
  | nil => rfl
  | cons p rest ih =>
    rw [oscSum_cons, fl_nan_add, toFloat_nan]
    exact ih

/-- A phase that is not finite makes the sum NaN. -/
theorem oscSum_of_not_finite (E : FloatEnv α) (sv out : Fl α) (p : Fl α) (rest : List (Fl α))
    (hp : Fl.isFinite p = false) : oscSum E sv out (p :: rest) = Fl.nan := by
  have hs : E.sinF p = Fl.nan := by
    cases p <;> simp [FloatEnv.sinF, Fl.isFinite] at hp ⊢
  rw [oscSum_cons, hs, fl_nan_mul, toFloat_nan, fl_nan_mul, toFloat_nan, fl_add_nan, toFloat_nan]
  exact oscSum_nan E sv rest

end FloatLemmas

section LoopLemmas

variable {α : Type} [LinearOrderedField α]

theorem riverStep_fl_eq (E : FloatEnv α) (st : AudioSynthesizer (Fl α)) (g l r : Fl α) :
    riverStep E st g l r =
      some (riverAdd E st g l 0, riverAdd E st g r 1, nextPos st) := by
  unfold riverStep riverAdd nextPos stepCursor
  cases hb : st.riverBuffer with
  | nil => simp
  | cons a t =>
    simp only [List.isEmpty_cons, Bool.false_eq_true, if_false, List.length_cons,
      Nat.add_sub_cancel]
    by_cases h : st.riverBufferPos < t.length
    · have h1 : st.riverBufferPos + 1 < t.length + 1 := by omega
      have h2 : st.riverBufferPos < t.length + 1 := by omega
      simp [h, h1, h2, List.getD_eq_getElem?_getD, List.getElem?_eq_getElem]
    · have h1 : ¬ st.riverBufferPos + 1 < t.length + 1 := by omega
      simp [h, h1]

theorem oscLoop_fl_eq (E : FloatEnv α) (sineVol sr : Fl α) (chord : Nat) :
    ∀ (freqs : List α) (pre suf : List (Fl α)) (phases : List (List (Fl α))) (out : Fl α),
      suf.length = freqs.length → phases[chord]? = some (pre ++ suf) →
      oscLoop E sineVol sr chord freqs pre.length phases out =
        some (phases.set chord (pre ++ List.zipWith (advancePhase E sr) freqs suf),
          oscSum E sineVol out suf) := by
  intro freqs
  induction freqs with
  | nil =>
    intro pre suf phases out hlen hrow
    have hs : suf = [] := List.length_eq_zero.mp (by simpa using hlen)
    subst hs
    simp only [oscLoop, List.zipWith_nil_left, oscSum, List.foldl_nil]
    rw [set_eq_self_of_getElem? phases chord _ hrow]
  | cons f rest ih =>
    intro pre suf phases out hlen hrow
    cases suf with
    | nil => simp at hlen
    | cons p suf2 =>
      have hc : chord < phases.length := lt_length_of_getElem? hrow
      have hlen2 : suf2.length = rest.length := by simpa using hlen
      have hj : (pre ++ p :: suf2)[pre.length]? = some p := by
        rw [List.getElem?_append_right (le_refl _)]
        simp
      have hset : (pre ++ p :: suf2).set pre.length (advancePhase E sr f p) =
          (pre ++ [advancePhase E sr f p]) ++ suf2 := by
        rw [List.set_append_right _ _ (le_refl _)]
        simp
      have hrow2 : (phases.set chord ((pre ++ [advancePhase E sr f p]) ++ suf2))[chord]? =
          some ((pre ++ [advancePhase E sr f p]) ++ suf2) := by
        rw [List.getElem?_set]
        simp [hc]
      have hstep := ih (pre ++ [advancePhase E sr f p]) suf2
        (phases.set chord ((pre ++ [advancePhase E sr f p]) ++ suf2))
        (E.toFloat (out + E.toFloat (E.toFloat (E.sinF p * sineVol) * Fl.fin 0.1))) hlen2 hrow2
      simp only [List.length_append, List.length_singleton] at hstep
      rw [oscLoop]
      simp only [hrow, hj, Option.bind_eq_bind, Option.some_bind, hset]
      rw [hstep, List.set_set, oscSum_cons]
      simp only [List.zipWith_cons_cons, List.append_assoc, List.singleton_append]

theorem sized_fl_rows {st : AudioSynthesizer (Fl α)} (hs : Sized st) {c : Nat} {ch : Chord α}
    (hch : (chords α)[c]? = some ch) :
    ∃ lrow rrow, st.leftPhases[c]? = some lrow ∧ lrow.length = ch.leftFreqs.length ∧
      st.rightPhases[c]? = some rrow ∧ rrow.length = ch.rightFreqs.length := by
  have h1 := congrArg (fun l => l[c]?) hs.1
  have h2 := congrArg (fun l => l[c]?) hs.2
  simp only [List.getElem?_map, hch, Option.map_some'] at h1 h2
  cases hl : st.leftPhases[c]? with
  | none => rw [hl] at h1; cases h1
  | some lrow =>
    cases hr : st.rightPhases[c]? with
    | none => rw [hr] at h2; cases h2
    | some rrow =>
      rw [hl] at h1
      rw [hr] at h2
      exact ⟨lrow, rrow, rfl, by simpa using h1, rfl, by simpa using h2⟩

theorem sized_fl_set {st : AudioSynthesizer (Fl α)} (hs : Sized st) {c : Nat} {ch : Chord α}
    {lnew rnew : List (Fl α)} (hch : (chords α)[c]? = some ch)
    (hl : lnew.length = ch.leftFreqs.length) (hr : rnew.length = ch.rightFreqs.length)
    (pos : Nat) :
    Sized { st with
      riverBufferPos := pos
      leftPhases := st.leftPhases.set c lnew
      rightPhases := st.rightPhases.set c rnew } := by
  constructor
  · show (st.leftPhases.set c lnew).map List.length = _
    rw [List.map_set, hs.1, hl]
    exact set_eq_self_of_getElem? _ _ _ (by simp [hch])
  · show (st.rightPhases.set c rnew).map List.length = _
    rw [List.map_set, hs.2, hr]
    exact set_eq_self_of_getElem? _ _ _ (by simp [hch])

/-- Under the sizing invariant one frame always completes; its result in
closed form. -/
theorem mixFrame_fl_sized (E : FloatEnv α) (g sv sr : Fl α) {c : Nat}
    (hc : c < (chords α).length) {st : AudioSynthesizer (Fl α)} (hs : Sized st) :
    ∃ ch lrow rrow, (chords α)[c]? = some ch ∧
      st.leftPhases[c]? = some lrow ∧ lrow.length = ch.leftFreqs.length ∧
      st.rightPhases[c]? = some rrow ∧ rrow.length = ch.rightFreqs.length ∧
      mixFrame E g sv sr c st =
        some (oscSum E sv (riverAdd E st g (Fl.fin 0) 0) lrow,
          oscSum E sv (riverAdd E st g (Fl.fin 0) 1) rrow,
          { st with
            riverBufferPos := nextPos st
            leftPhases :=
              st.leftPhases.set c (List.zipWith (advancePhase E sr) ch.leftFreqs lrow)
            rightPhases :=
              st.rightPhases.set c (List.zipWith (advancePhase E sr) ch.rightFreqs rrow) }) ∧
      Sized { st with
            riverBufferPos := nextPos st
            leftPhases :=
              st.leftPhases.set c (List.zipWith (advancePhase E sr) ch.leftFreqs lrow)
            rightPhases :=
              st.rightPhases.set c (List.zipWith (advancePhase E sr) ch.rightFreqs rrow) } := by
  obtain ⟨ch, hch⟩ := chords_getElem?_of_lt (α := α) hc
  obtain ⟨lrow, rrow, hl, hll, hr, hrl⟩ := sized_fl_rows hs hch
  have hL := oscLoop_fl_eq E sv sr c ch.leftFreqs [] lrow st.leftPhases
    (riverAdd E st g (Fl.fin 0) 0) hll (by simpa using hl)
  have hR := oscLoop_fl_eq E sv sr c ch.rightFreqs [] rrow st.rightPhases
    (riverAdd E st g (Fl.fin 0) 1) hrl (by simpa using hr)
  simp only [List.length_nil, List.nil_append] at hL hR
  refine ⟨ch, lrow, rrow, hch, hl, hll, hr, hrl, ?_,
    sized_fl_set hs hch (by simp [hll]) (by simp [hrl]) _⟩
  simp only [mixFrame, riverStep_fl_eq, hch, Option.bind_eq_bind, Option.some_bind, hL, hR]

/-- The frame loop is the record loop followed by the clamp and the writes. -/
theorem frameLoop_eq_records (E : FloatEnv α) (g sv sr : Fl α) (c : Nat) :
    ∀ (k i : Nat) (buffer : Nat → Fl α) (st : AudioSynthesizer (Fl α)),
      frameLoop E g sv sr c k i buffer st =
        (frameRecords E g sv sr c k st).map
          (fun p => (writeRecords i buffer p.1, p.2)) := by
  intro k
  induction k with
  | zero => intro i buffer st; simp [frameLoop, frameRecords, writeRecords]
  | succ k ih =>
    intro i buffer st
    rw [frameLoop, frameRecords]
    cases hm : mixFrame E g sv sr c st with
    | none => simp
    | some res =>
      obtain ⟨l, r, st2⟩ := res
      simp only [Option.bind_eq_bind, Option.some_bind, ih]
      cases hp : frameRecords E g sv sr c k st2 with
      | none => simp
      | some q => simp [writeRecords]

theorem audioCallback_eq_records (E : FloatEnv α) (ctl : Controls (Fl α))
    (buffer : Nat → Fl α) (n : Nat) (st : AudioSynthesizer (Fl α)) :
    audioCallback E ctl buffer n st =
      (frameRecords E ctl.riverVolume ctl.sineVolume ctl.sampleRate
        (clampChord α ctl.selectedChord) n st).map
        (fun p => (writeRecords 0 buffer p.1, p.2)) :=
  frameLoop_eq_records _ _ _ _ _ _ _ _ _

/-- An invariant of the frame body that makes every frame complete makes the
record loop complete and is kept; every record starts from a state with the
invariant, carries the chord, and holds the sums the body computes there. -/
theorem frameRecords_inv (E : FloatEnv α) (g sv sr : Fl α) (c : Nat)
    (Inv : AudioSynthesizer (Fl α) → Prop)
    (hstep : ∀ s, Inv s → ∃ l r s2, mixFrame E g sv sr c s = some (l, r, s2) ∧ Inv s2) :
    ∀ (k : Nat) (st : AudioSynthesizer (Fl α)), Inv st →
      ∃ fs st2, frameRecords E g sv sr c k st = some (fs, st2) ∧ fs.length = k ∧
        Inv st2 ∧ ∀ f ∈ fs, Inv f.before ∧ f.chord = c ∧
          ∃ s2, mixFrame E g sv sr c f.before = some (f.left, f.right, s2) := by
  intro k
  induction k with
  | zero => intro st h; exact ⟨[], st, rfl, rfl, h, by simp⟩
  | succ k ih =>
    intro st h
    obtain ⟨l, r, s2, hm, hi⟩ := hstep st h
    obtain ⟨fs, st3, hfs, hlen, hi3, hall⟩ := ih s2 hi
    rw [frameRecords]
    simp only [hm, hfs, Option.bind_eq_bind, Option.some_bind]
    refine ⟨_, st3, rfl, by simp [hlen], hi3, ?_⟩
    intro f hf
    rcases List.mem_cons.mp hf with h1 | h1
    · rw [h1]; exact ⟨h, rfl, s2, hm⟩
    · exact hall f h1

/-- The cursor along the records of one invocation. -/
theorem frameRecords_cursor (E : FloatEnv α) (g sv sr : Fl α) {c : Nat}
    (hc : c < (chords α).length) :
    ∀ (k : Nat) (st : AudioSynthesizer (Fl α)), Sized st →
      ∃ fs st2, frameRecords E g sv sr c k st = some (fs, st2) ∧ fs.length = k ∧
        Sized st2 ∧ st2.riverBuffer = st.riverBuffer ∧
        st2.riverBufferPos = cursorAfter st.riverBuffer.length k st.riverBufferPos ∧
        ∀ i f, fs[i]? = some f →
          Sized f.before ∧ f.chord = c ∧ f.before.riverBuffer = st.riverBuffer ∧
          f.before.riverBufferPos = cursorAfter st.riverBuffer.length i st.riverBufferPos ∧
          ∃ s2, mixFrame E g sv sr c f.before = some (f.left, f.right, s2) := by
  intro k
  induction k with
  | zero =>
    intro st hs
    exact ⟨[], st, rfl, rfl, hs, rfl, rfl, by intro i f h; simp at h⟩
  | succ k ih =>
    intro st hs
    obtain ⟨ch, lrow, rrow, _, _, _, _, _, hm, hsz⟩ := mixFrame_fl_sized E g sv sr hc hs
    obtain ⟨fs, st3, hfs, hlen, hs3, hb3, hp3, hall⟩ := ih _ hsz
    rw [frameRecords]
    simp only [hm, hfs, Option.bind_eq_bind, Option.some_bind]
    refine ⟨_, st3, rfl, by simp [hlen], hs3, hb3, ?_, ?_⟩
    · rw [hp3, cursorAfter]
      rfl
    · intro i f hf
      cases i with
      | zero =>
        simp only [List.getElem?_cons_zero, Option.some.injEq] at hf
        rw [← hf]
        exact ⟨hs, rfl, rfl, rfl, _, hm⟩
      | succ i =>
        rw [List.getElem?_cons_succ] at hf
        obtain ⟨h1, h2, h3, h4, h5⟩ := hall i f hf
        refine ⟨h1, h2, h3, ?_, h5⟩
        rw [h4, cursorAfter]
        rfl

/-- The invocation runner in terms of the record loop alone. -/
theorem runCallbacks_fl_cons (E : FloatEnv α) (ctl : Controls (Fl α)) (n : Nat)
    (rest : List (Controls (Fl α) × Nat)) (st : AudioSynthesizer (Fl α)) :
    runCallbacks E ((ctl, n) :: rest) st =
      (frameRecords E ctl.riverVolume ctl.sineVolume ctl.sampleRate
        (clampChord α ctl.selectedChord) n st).bind
        (fun p => (runCallbacks E rest p.2).bind
          (fun q => some (p.1 ++ q.1, q.2))) := by
  rw [runCallbacks, audioCallback_eq_records]
  cases frameRecords E ctl.riverVolume ctl.sineVolume ctl.sampleRate
    (clampChord α ctl.selectedChord) n st with
  | none => rfl
  | some p => rfl

/-- An invariant of the frame body under the controls of every invocation of
a list makes the whole run complete and is kept; every record starts from a
state with the invariant. -/
theorem runCallbacks_fl_inv (E : FloatEnv α) (Inv : AudioSynthesizer (Fl α) → Prop) :
    ∀ (calls : List (Controls (Fl α) × Nat)),
      (∀ c ∈ calls, ∀ s, Inv s → ∃ l r s2,
        mixFrame E c.1.riverVolume c.1.sineVolume c.1.sampleRate
          (clampChord α c.1.selectedChord) s = some (l, r, s2) ∧ Inv s2) →
      ∀ st, Inv st →
        ∃ fs st2, runCallbacks E calls st = some (fs, st2) ∧
          fs.length = (calls.map (fun c => c.2)).sum ∧ Inv st2 ∧
          ∀ f ∈ fs, Inv f.before := by
  intro calls
  induction calls with
  | nil => intro _ st h; exact ⟨[], st, rfl, rfl, h, by simp⟩
  | cons c rest ih =>
    intro hstep st h
    obtain ⟨ctl, n⟩ := c
    obtain ⟨fs, st2, hfs, hlen, hi, hall⟩ := frameRecords_inv E ctl.riverVolume
      ctl.sineVolume ctl.sampleRate (clampChord α ctl.selectedChord) Inv
      (hstep (ctl, n) (by simp)) n st h
    obtain ⟨gs, st3, hgs, hlen2, hi3, hall3⟩ := ih
      (fun c hc => hstep c (List.mem_cons_of_mem _ hc)) st2 hi
    refine ⟨fs ++ gs, st3, ?_, by simp [hlen, hlen2], hi3, ?_⟩
    · rw [runCallbacks_fl_cons, hfs]
      simp [hgs]
    · intro f hf
      rcases List.mem_append.mp hf with h1 | h1
      · exact (hall f h1).1
      · exact hall3 f h1

/-- The cursor along the records of a list of invocations that all have river
volume `g` and sine volume `sv`. -/
theorem runCallbacks_fl_cursor (E : FloatEnv α) (g sv : Fl α) :
    ∀ (calls : List (Controls (Fl α) × Nat)),
      (∀ c ∈ calls, c.1.riverVolume = g ∧ c.1.sineVolume = sv) →
      ∀ (st : AudioSynthesizer (Fl α)), Sized st →
        ∃ fs st2, runCallbacks E calls st = some (fs, st2) ∧
          fs.length = (calls.map (fun c => c.2)).sum ∧
          st2.riverBuffer = st.riverBuffer ∧
          st2.riverBufferPos = cursorAfter st.riverBuffer.length
            (calls.map (fun c => c.2)).sum st.riverBufferPos ∧
          ∀ i f, fs[i]? = some f →
            Sized f.before ∧ f.chord < (chords α).length ∧
            f.before.riverBuffer = st.riverBuffer ∧
            f.before.riverBufferPos =
              cursorAfter st.riverBuffer.length i st.riverBufferPos ∧
            ∃ sr s2, mixFrame E g sv sr f.chord f.before = some (f.left, f.right, s2) := by
  intro calls
  induction calls with
  | nil => intro _ st _; exact ⟨[], st, rfl, rfl, rfl, rfl, by intro i f h; simp at h⟩
  | cons c rest ih =>
    intro hctl st hs
    obtain ⟨ctl, n⟩ := c
    have hc := hctl (ctl, n) (by simp)
    simp only at hc
    obtain ⟨fs, st2, hfs, hlen, hs2, hb2, hp2, hall⟩ := frameRecords_cursor E g sv
      ctl.sampleRate (clampChord_lt (α := α) ctl.selectedChord) n st hs
    obtain ⟨gs, st3, hgs, hlen3, hb3, hp3, hall3⟩ := ih
      (fun c hc => hctl c (List.mem_cons_of_mem _ hc)) st2 hs2
    refine ⟨fs ++ gs, st3, ?_, by simp [hlen, hlen3], by rw [hb3, hb2], ?_, ?_⟩
    · rw [runCallbacks_fl_cons, hc.1, hc.2, hfs]
      simp [hgs]
    · rw [hp3, hb2, hp2]
      simp only [List.map_cons, List.sum_cons]
      rw [cursorAfter_add]
    · intro i f hf
      by_cases h : i < n
      · rw [List.getElem?_append_left (by omega)] at hf
        obtain ⟨h1, h2, h3, h4, s2, h5⟩ := hall i f hf
        exact ⟨h1, by rw [h2]; exact clampChord_lt (α := α) ctl.selectedChord, h3, h4,
          ctl.sampleRate, s2, by rw [h2] at *; exact h5⟩
      · rw [List.getElem?_append_right (by omega), hlen] at hf
        obtain ⟨h1, h2, h3, h4, h5⟩ := hall3 (i - n) f hf
        refine ⟨h1, h2, by rw [h3, hb2], ?_, h5⟩
        rw [h4, hb2, hp2, ← cursorAfter_add]
        have e : n + (i - n) = i := by omega
        rw [e]

/-- A position that no record of the list addresses keeps its content. -/
theorem writeRecords_untouched :
    ∀ (fs : List (FrameRecord α)) (i : Nat) (buffer : Nat → Fl α) (idx : Nat),
      (∀ j, j < fs.length →
        idx ≠ (i + j) * 2 % 4294967296 ∧ idx ≠ ((i + j) * 2 + 1) % 4294967296) →
      writeRecords i buffer fs idx = buffer idx := by
  intro fs
  induction fs with
  | nil => intro i buffer idx _; rfl
  | cons f fs ih =>
    intro i buffer idx h
    rw [writeRecords, ih]
    · have h0 := h 0 (by simp)
      simp only [add_zero] at h0
      rw [Function.update_noteq h0.2, Function.update_noteq h0.1]
    · intro j hj
      have := h (j + 1) (by simpa using hj)
      have e : i + (j + 1) = i + 1 + j := by omega
      rw [e] at this
      exact this

/-- A property of every clamped sample of the list holds at every position a
record of the list addresses, and is kept where it held before. -/
theorem writeRecords_prop (P : Fl α → Prop) :
    ∀ (fs : List (FrameRecord α)) (i : Nat) (buffer : Nat → Fl α) (idx : Nat),
      (∀ f ∈ fs, P (clip f.left) ∧ P (clip f.right)) →
      (P (buffer idx) ∨ ∃ j, j < fs.length ∧
        (idx = (i + j) * 2 % 4294967296 ∨ idx = ((i + j) * 2 + 1) % 4294967296)) →
      P (writeRecords i buffer fs idx) := by
  intro fs
  induction fs with
  | nil =>
    intro i buffer idx _ h
    rcases h with h | ⟨j, hj, _⟩
    · exact h
    · simp at hj
  | cons f fs ih =>
    intro i buffer idx hall h
    have hf := hall f (by simp)
    rw [writeRecords]
    apply ih
    · intro g hg
      exact hall g (List.mem_cons_of_mem _ hg)
    · have key : ∀ b : Nat → Fl α, (P (b idx) ∨ idx = i * 2 % 4294967296 ∨
          idx = (i * 2 + 1) % 4294967296) →
          P (Function.update (Function.update b (i * 2 % 4294967296) (clip f.left))
            ((i * 2 + 1) % 4294967296) (clip f.right) idx) := by
        intro b hb
        by_cases e1 : idx = (i * 2 + 1) % 4294967296
        · rw [e1, Function.update_same]; exact hf.2
        · rw [Function.update_noteq e1]
          by_cases e0 : idx = i * 2 % 4294967296
          · rw [e0, Function.update_same]; exact hf.1
          · rw [Function.update_noteq e0]
            rcases hb with hb | hb | hb
            · exact hb
            · exact absurd hb e0
            · exact absurd hb e1
      rcases h with h | ⟨j, hj, hidx⟩
      · exact Or.inl (key buffer (Or.inl h))
      · cases j with
        | zero =>
          simp only [add_zero] at hidx
          exact Or.inl (key buffer (Or.inr hidx))
        | succ j =>
          right
          refine ⟨j, by simpa using hj, ?_⟩
          have e : i + (j + 1) = i + 1 + j := by omega
          rw [e] at hidx
          exact hidx

theorem sized_fl_startState (buf : List (Fl α)) (pos : Nat) :
    Sized { startState α with riverBuffer := buf, riverBufferPos := pos } := by
  constructor <;> simp [startState, List.map_map, Function.comp_def]

end LoopLemmas

section RangeLemmas

variable {α : Type} [LinearOrderedField α]

theorem rows_finite_of_phasesFinite {β : Type} {st : AudioSynthesizer (Fl β)} {c : Nat}
    {lrow rrow : List (Fl β)} (hl : st.leftPhases[c]? = some lrow)
    (hr : st.rightPhases[c]? = some rrow) (h : phasesFinite st c = true) :
    (∀ p ∈ lrow, Fl.isFinite p = true) ∧ (∀ p ∈ rrow, Fl.isFinite p = true) := by
  unfold phasesFinite at h
  rw [List.getD_eq_getElem?_getD, List.getD_eq_getElem?_getD, hl, hr] at h
  simp only [Option.getD_some, List.all_append, Bool.and_eq_true, List.all_eq_true] at h
  exact h

theorem riverAdd_nil (E : FloatEnv α) {st : AudioSynthesizer (Fl α)} (h : st.riverBuffer = [])
    (g out : Fl α) (off : Nat) : riverAdd E st g out off = out := by
  simp [riverAdd, h]

/-- One phase update at a sample rate that no partial frequency exceeds keeps
a phase in `[0, Tm]`, where `Tm` is the largest `float` below `2·M_PI`. -/
theorem advancePhase_within (E : FloatEnv α) {Tm sr f x : α} (hpi : 0 < E.pi)
    (hmono : Monotone E.rnd) (hr0 : E.rnd 0 = 0) (hTm : E.rnd Tm = Tm)
    (hrep : ∀ y, E.rnd y ≤ 2 * E.pi → E.rnd y ≤ Tm)
    (hdown : E.rnd (Tm + 2 * E.pi) ≤ Tm + 2 * E.pi) (hlt : Tm < 2 * E.pi)
    (hmax : 4 * E.pi ≤ E.fltMax) (hsr : 0 < sr) (hf0 : 0 ≤ f) (hf : f ≤ sr)
    (hx0 : 0 ≤ x) (hx : x ≤ Tm) :
    ∃ y, advancePhase E (Fl.fin sr) f (Fl.fin x) = Fl.fin y ∧ 0 ≤ y ∧ y ≤ Tm := by
  have hinc0 : 0 ≤ 2 * E.pi * f / sr := by positivity
  have hinc : 2 * E.pi * f / sr ≤ 2 * E.pi := by
    rw [div_le_iff₀ hsr]
    nlinarith
  have hsum : (Fl.fin x + Fl.fin (2 * E.pi * f) / Fl.fin sr : Fl α) =
      Fl.fin (x + 2 * E.pi * f / sr) := by
    rw [fl_fin_div_fin (ne_of_gt hsr), fl_fin_add_fin]
  have hy0 : 0 ≤ E.rnd (x + 2 * E.pi * f / sr) := by
    have := hmono (show (0 : α) ≤ x + 2 * E.pi * f / sr by linarith)
    rwa [hr0] at this
  have hy1 : E.rnd (x + 2 * E.pi * f / sr) ≤ Tm + 2 * E.pi :=
    le_trans (hmono (show x + 2 * E.pi * f / sr ≤ Tm + 2 * E.pi by linarith)) hdown
  have hstore : E.toFloat (Fl.fin (x + 2 * E.pi * f / sr)) =
      Fl.fin (E.rnd (x + 2 * E.pi * f / sr)) :=
    toFloat_fin E (by linarith) (by linarith)
  unfold advancePhase
  simp only [hsum, hstore, fl_fin_mul_fin, Fl.lt, decide_eq_true_eq]
  by_cases hw : 2 * E.pi < E.rnd (x + 2 * E.pi * f / sr)
  · rw [if_pos hw, fl_fin_sub_fin]
    have hz0 : 0 ≤ E.rnd (E.rnd (x + 2 * E.pi * f / sr) - 2 * E.pi) := by
      have := hmono (show (0 : α) ≤ E.rnd (x + 2 * E.pi * f / sr) - 2 * E.pi by linarith)
      rwa [hr0] at this
    have hz1 : E.rnd (E.rnd (x + 2 * E.pi * f / sr) - 2 * E.pi) ≤ Tm := by
      have := hmono (show E.rnd (x + 2 * E.pi * f / sr) - 2 * E.pi ≤ Tm by linarith)
      rwa [hTm] at this
    rw [toFloat_fin E (by linarith) (by linarith)]
    exact ⟨_, rfl, hz0, hz1⟩
  · rw [if_neg hw]
    exact ⟨_, rfl, hy0, hrep _ (not_lt.mp hw)⟩

theorem zipWith_advance_within (E : FloatEnv α) {Tm sr : α} (hpi : 0 < E.pi)
    (hmono : Monotone E.rnd) (hr0 : E.rnd 0 = 0) (hTm : E.rnd Tm = Tm)
    (hrep : ∀ y, E.rnd y ≤ 2 * E.pi → E.rnd y ≤ Tm)
    (hdown : E.rnd (Tm + 2 * E.pi) ≤ Tm + 2 * E.pi) (hlt : Tm < 2 * E.pi)
    (hmax : 4 * E.pi ≤ E.fltMax) (hsr : 0 < sr) :
    ∀ (freqs : List α) (row : List (Fl α)), (∀ f ∈ freqs, 0 ≤ f ∧ f ≤ sr) →
      (∀ p ∈ row, ∃ x, p = Fl.fin x ∧ 0 ≤ x ∧ x ≤ Tm) →
      ∀ q ∈ List.zipWith (advancePhase E (Fl.fin sr)) freqs row,
        ∃ y, q = Fl.fin y ∧ 0 ≤ y ∧ y ≤ Tm := by
  intro freqs
  induction freqs with
  | nil => intro row _ _ q hq; simp at hq
  | cons f rest ih =>
    intro row hfs hrow q hq
    cases row with
    | nil => simp at hq
    | cons p row2 =>
      simp only [List.zipWith_cons_cons, List.mem_cons] at hq
      rcases hq with h | h
      · obtain ⟨x, hpx, hx0, hx⟩ := hrow p (by simp)
        have hf := hfs f (by simp)
        rw [h, hpx]
        exact advancePhase_within E hpi hmono hr0 hTm hrep hdown hlt hmax hsr hf.1 hf.2 hx0 hx
      · exact ih row2 (fun g hg => hfs g (List.mem_cons_of_mem _ hg))
          (fun g hg => hrow g (List.mem_cons_of_mem _ hg)) q h

/-- One frame keeps the sizing invariant and all phases in `[0, Tm]` when the
sample rate is at least 922 Hz. -/
theorem mixFrame_fl_within (E : FloatEnv α) {Tm sr : α} (g sv : Fl α) (hpi : 0 < E.pi)
    (hmono : Monotone E.rnd) (hr0 : E.rnd 0 = 0) (hTm : E.rnd Tm = Tm)
    (hrep : ∀ y, E.rnd y ≤ 2 * E.pi → E.rnd y ≤ Tm)
    (hdown : E.rnd (Tm + 2 * E.pi) ≤ Tm + 2 * E.pi) (hlt : Tm < 2 * E.pi)
    (hmax : 4 * E.pi ≤ E.fltMax) (hsr : 922 ≤ sr) {c : Nat} (hc : c < (chords α).length)
    {st : AudioSynthesizer (Fl α)} (hs : Sized st) (hr : PhasesWithin Tm st) :
    ∃ l r s2, mixFrame E g sv (Fl.fin sr) c st = some (l, r, s2) ∧ Sized s2 ∧
      PhasesWithin Tm s2 := by
  obtain ⟨ch, lrow, rrow, hch, hl, _, hrr, _, hm, hsz⟩ :=
    mixFrame_fl_sized E g sv (Fl.fin sr) hc hs
  refine ⟨_, _, _, hm, hsz, ?_⟩
  have hsr0 : (0 : α) < sr := by linarith
  have hmem : ch ∈ chords α := List.getElem?_mem hch
  have hb := chords_freq_bounds ch hmem
  have hlmem : lrow ∈ st.leftPhases := List.getElem?_mem hl
  have hrmem : rrow ∈ st.rightPhases := List.getElem?_mem hrr
  intro row hrow p hp
  simp only [List.mem_append] at hrow
  rcases hrow with h | h
  · rcases List.mem_or_eq_of_mem_set h with h2 | h2
    · exact hr row (List.mem_append_left _ h2) p hp
    · rw [h2] at hp
      exact zipWith_advance_within E hpi hmono hr0 hTm hrep hdown hlt hmax hsr0 ch.leftFreqs lrow
        (fun f hf => ⟨(hb.1 f hf).1, le_trans (hb.1 f hf).2 hsr⟩)
        (hr lrow (List.mem_append_left _ hlmem)) p hp
  · rcases List.mem_or_eq_of_mem_set h with h2 | h2
    · exact hr row (List.mem_append_right _ h2) p hp
    · rw [h2] at hp
      exact zipWith_advance_within E hpi hmono hr0 hTm hrep hdown hlt hmax hsr0 ch.rightFreqs
        rrow (fun f hf => ⟨(hb.2 f hf).1, le_trans (hb.2 f hf).2 hsr⟩)
        (hr rrow (List.mem_append_right _ hrmem)) p hp

theorem startState_fl_within {Tm : α} (hTm : 0 ≤ Tm) (buf : List (Fl α)) (pos : Nat) :
    PhasesWithin Tm { startState α with riverBuffer := buf, riverBufferPos := pos } := by
  intro row hrow p hp
  simp only [startState, List.mem_append, List.mem_map] at hrow
  have h0 : p = Fl.fin 0 := by
    rcases hrow with ⟨ch, _, h⟩ | ⟨ch, _, h⟩ <;>
      · rw [← h] at hp
        simp only [List.mem_map] at hp
        obtain ⟨_, _, h2⟩ := hp
        exact h2.symm
  exact ⟨0, h0, le_refl _, hTm⟩

theorem phasesFinite_of_within {Tm : α} {st : AudioSynthesizer (Fl α)}
    (h : PhasesWithin Tm st) (c : Nat) : phasesFinite st c = true := by
  unfold phasesFinite
  rw [List.all_eq_true]
  intro p hp
  have hrow : ∃ row ∈ st.leftPhases ++ st.rightPhases, p ∈ row := by
    rcases List.mem_append.mp hp with h1 | h1
    · rw [List.getD_eq_getElem?_getD] at h1
      cases hg : st.leftPhases[c]? with
      | none => rw [hg] at h1; simp at h1
      | some row =>
        rw [hg] at h1
        exact ⟨row, List.mem_append_left _ (List.getElem?_mem hg), h1⟩
    · rw [List.getD_eq_getElem?_getD] at h1
      cases hg : st.rightPhases[c]? with
      | none => rw [hg] at h1; simp at h1
      | some row =>
        rw [hg] at h1
        exact ⟨row, List.mem_append_right _ (List.getElem?_mem hg), h1⟩
  obtain ⟨row, hr, hpr⟩ := hrow
  obtain ⟨x, hx, _⟩ := h row hr p hpr
  rw [hx]
  rfl

/-- The evaluation environment has the rounding properties the range of the
phases rests on, with `Tm = 13176794 / 2^21`. -/
theorem evalEnv_props :
    0 < evalEnv.pi ∧ Monotone evalEnv.rnd ∧ evalEnv.rnd 0 = 0 ∧
    evalEnv.rnd (13176794 / 2097152) = 13176794 / 2097152 ∧
    (∀ y, evalEnv.rnd y ≤ 2 * evalEnv.pi → evalEnv.rnd y ≤ 13176794 / 2097152) ∧
    evalEnv.rnd (13176794 / 2097152 + 2 * evalEnv.pi) ≤ 13176794 / 2097152 + 2 * evalEnv.pi ∧
    (13176794 / 2097152 : ℚ) < 2 * evalEnv.pi ∧ 4 * evalEnv.pi ≤ evalEnv.fltMax := by
  have hfl : ∀ y : ℚ, evalEnv.rnd y = (⌊y * 2097152⌋ : ℚ) / 2097152 := fun _ => rfl
  have hpi : evalEnv.pi = 884279719003555 / 281474976710656 := rfl
  have hfm : evalEnv.fltMax = 340282346638528859811704183484516925440 := rfl
  refine ⟨by rw [hpi]; norm_num, ?_, ?_, ?_, ?_, ?_, by rw [hpi]; norm_num,
    by rw [hpi, hfm]; norm_num⟩
  · intro a b hab
    rw [hfl, hfl]
    apply div_le_div_of_nonneg_right _ (by norm_num)
    exact_mod_cast Int.floor_mono (mul_le_mul_of_nonneg_right hab (by norm_num))
  · rw [hfl]; simp
  · rw [hfl]
    have : (13176794 / 2097152 * 2097152 : ℚ) = ((13176794 : ℤ) : ℚ) := by norm_num
    rw [this, Int.floor_intCast]
    norm_num
  · intro y hy
    rw [hfl, hpi] at hy
    rw [hfl]
    rw [div_le_iff₀ (by norm_num)] at hy
    have h1 : (⌊y * 2097152⌋ : ℚ) < ((13176795 : ℤ) : ℚ) := by
      refine lt_of_le_of_lt hy ?_
      norm_num
    have h2 : ⌊y * 2097152⌋ < 13176795 := by exact_mod_cast h1
    have h3 : ⌊y * 2097152⌋ ≤ 13176794 := by omega
    have h4 : (⌊y * 2097152⌋ : ℚ) ≤ 13176794 := by exact_mod_cast h3
    exact div_le_div_of_nonneg_right h4 (by norm_num)
  · rw [hfl]
    rw [div_le_iff₀ (by norm_num)]
    exact Int.floor_le _

end RangeLemmas

end Ieee

/-! ## The claims -/

section Claims

variable {α : Type} [LinearOrderedField α]

/-- C10: `audioCallback` is total.  `initialize` on the constructed object
returns a state with the sizing invariant and cursor 0; from every state with
the sizing invariant (any river buffer, any cursor), for every control
snapshot and frame count, the callback returns (no checked subscript into the
chord table, the phase arrays or the river buffer fails), the sizing invariant
and the buffer are kept, and a cursor within the buffer length stays so. -/
theorem audioCallback_total (sin : α → α) (pi : α) :
    (initPhases (AudioSynthesizer.fresh α) = some (startState α) ∧
      Sized (startState α) ∧ (startState α).riverBufferPos = 0) ∧
    ∀ (ctl : Controls α) (buffer : Nat → α) (n : Nat) (st : AudioSynthesizer α),
      Sized st →
      ∃ out st2, audioCallback sin pi ctl buffer n st = some (out, st2) ∧
        Sized st2 ∧ st2.riverBuffer = st.riverBuffer ∧
        (st.riverBufferPos ≤ st.riverBuffer.length →
          st2.riverBufferPos ≤ st2.riverBuffer.length) := by
  refine ⟨⟨initPhases_fresh, sized_startState, rfl⟩, ?_⟩
  intro ctl buffer n st hs
  exact audioCallback_sized sin pi ctl buffer n st hs

/-- Witness for C10: 256 frames with chord 7 on a three-sample river buffer. -/
theorem audioCallback_total_witness :
    ∃ out st2,
      audioCallback (fun x : ℚ => x) 3 ⟨1 / 2, 7, 1 / 2, 44100⟩ (fun _ => 0) 256
        { startState ℚ with riverBuffer := [1 / 10, 2 / 10, 3 / 10] } = some (out, st2) ∧
      Sized st2 ∧ st2.riverBuffer = [1 / 10, 2 / 10, 3 / 10] ∧
      ((0 : Nat) ≤ 3 → st2.riverBufferPos ≤ st2.riverBuffer.length) :=
  (audioCallback_total (fun x : ℚ => x) 3).2 ⟨1 / 2, 7, 1 / 2, 44100⟩ (fun _ => 0) 256
    { startState ℚ with riverBuffer := [1 / 10, 2 / 10, 3 / 10] }
    ⟨sized_startState.1, sized_startState.2⟩

/-- C1 (amended): from every state with the sizing invariant, for every
control snapshot, river buffer and frame count `n ≤ 2^31`, `audioCallback`
returns, frame `k < n` puts the clamp of its two pre-clip sums at positions
`2k` and `2k+1`, every position below `2n` then holds a value in `[-1, 1]`,
and every position from `2n` on keeps its content. -/
theorem audioCallback_writes_clipped_frames (sin : α → α) (pi : α) (ctl : Controls α)
    (buffer : Nat → α) (n : Nat) (st : AudioSynthesizer α) (hs : Sized st)
    (hn : n ≤ 2147483648) :
    ∃ fs out st2,
      preClipFrames sin pi ctl.riverVolume ctl.sineVolume ctl.sampleRate
        (clampChord α ctl.selectedChord) n st = some (fs, st2) ∧ fs.length = n ∧
      audioCallback sin pi ctl buffer n st = some (out, st2) ∧
      (∀ k l r, fs[k]? = some (l, r) →
        out (2 * k) = max (-1) (min 1 l) ∧ out (2 * k + 1) = max (-1) (min 1 r)) ∧
      (∀ idx, idx < 2 * n → -1 ≤ out idx ∧ out idx ≤ 1) ∧
      (∀ idx, 2 * n ≤ idx → out idx = buffer idx) := by
  obtain ⟨fs, st2, h, hl, _, _, _⟩ := preClipFrames_sized sin pi ctl.riverVolume
    ctl.sineVolume ctl.sampleRate (clampChord_lt (α := α) ctl.selectedChord) n st hs
  have hex : ∀ k l r, fs[k]? = some (l, r) →
      writeFrames 0 buffer fs (2 * k) = clip l ∧ writeFrames 0 buffer fs (2 * k + 1) = clip r := by
    intro k l r hk
    have := writeFrames_exact fs 0 buffer (by omega) k l r hk
    simpa using this
  refine ⟨fs, writeFrames 0 buffer fs, st2, h, hl, by rw [audioCallback_eq_preClip, h]; rfl,
    hex, ?_, ?_⟩
  · intro idx hidx
    have hk : idx / 2 < fs.length := by omega
    have hget : fs[idx / 2]? = some (fs[idx / 2].1, fs[idx / 2].2) := by
      rw [List.getElem?_eq_getElem hk]
    obtain ⟨e0, e1⟩ := hex _ _ _ hget
    rcases Nat.mod_two_eq_zero_or_one idx with hm | hm
    · have : idx = 2 * (idx / 2) := by omega
      rw [this, e0]
      exact clip_bounds _
    · have : idx = 2 * (idx / 2) + 1 := by omega
      rw [this, e1]
      exact clip_bounds _
  · intro idx hidx
    apply writeFrames_untouched
    intro j hj
    omega

/-- Witness for C1 (amended): 256 frames of chord 3 from the start state. -/
theorem audioCallback_writes_clipped_frames_witness :
    ∃ fs out st2,
      preClipFrames (fun x : ℚ => x) 3 (1 / 2) 1 44100 (clampChord ℚ 3) 256 (startState ℚ) =
        some (fs, st2) ∧ fs.length = 256 ∧
      audioCallback (fun x : ℚ => x) 3 ⟨1 / 2, 3, 1, 44100⟩ (fun _ => 7) 256 (startState ℚ) =
        some (out, st2) ∧
      (∀ k l r, fs[k]? = some (l, r) →
        out (2 * k) = max (-1) (min 1 l) ∧ out (2 * k + 1) = max (-1) (min 1 r)) ∧
      (∀ idx, idx < 2 * 256 → -1 ≤ out idx ∧ out idx ≤ 1) ∧
      (∀ idx, 2 * 256 ≤ idx → out idx = (fun _ => (7 : ℚ)) idx) :=
  audioCallback_writes_clipped_frames (fun x : ℚ => x) 3 ⟨1 / 2, 3, 1, 44100⟩ (fun _ => 7) 256
    (startState ℚ) ⟨sized_startState.1, sized_startState.2⟩ (by norm_num)

/-- C1 as stated fails: with `2^31 + 1` frames the claim has position `2^32`
(below `2n = 2^32 + 2`) written with a value in `[-1, 1]`, but the 32-bit index
`i * 2` of frame `i = 2^31` wraps to 0, so position `2^32` keeps its old
content, here 5. -/
theorem audioCallback_index_wraps :
    ∃ out st2,
      audioCallback (fun x : ℚ => x) 3 ⟨0, 0, 0, 44100⟩ (fun _ => 5) 2147483649
        (startState ℚ) = some (out, st2) ∧
      4294967296 < 2 * 2147483649 ∧ out 4294967296 = 5 ∧ ¬ out 4294967296 ≤ 1 := by
  obtain ⟨fs, st2, h, _⟩ := preClipFrames_sized (fun x : ℚ => x) 3 0 0 44100
    (clampChord_lt (α := ℚ) 0) 2147483649 (startState ℚ) sized_startState
  have hw : writeFrames 0 (fun _ => (5 : ℚ)) fs 4294967296 = 5 :=
    writeFrames_high fs 0 _ _ (le_refl _)
  refine ⟨writeFrames 0 (fun _ => 5) fs, st2, ?_, by norm_num, hw, ?_⟩
  · rw [audioCallback_eq_preClip, h]; rfl
  · rw [hw]; norm_num

/-- C4: the chord table has 12 entries; from every state with the sizing
invariant the callback returns, and a selected chord below 0 gives the same
output buffer and the same resulting state as chord 0, a selected chord of 12
or more the same as chord 11. -/
theorem audioCallback_clamps_chord (sin : α → α) (pi : α) (ctl : Controls α)
    (buffer : Nat → α) (n : Nat) (st : AudioSynthesizer α) (hs : Sized st) :
    (chords α).length = 12 ∧
    ∃ out st2, audioCallback sin pi ctl buffer n st = some (out, st2) ∧
      (ctl.selectedChord < 0 →
        audioCallback sin pi { ctl with selectedChord := 0 } buffer n st = some (out, st2)) ∧
      (12 ≤ ctl.selectedChord →
        audioCallback sin pi { ctl with selectedChord := 11 } buffer n st = some (out, st2)) := by
  have hlen : (chords α).length = 12 := rfl
  refine ⟨hlen, ?_⟩
  obtain ⟨out, st2, h, _⟩ := audioCallback_sized sin pi ctl buffer n st hs
  refine ⟨out, st2, h, ?_, ?_⟩
  · intro hc
    have e : clampChord α ctl.selectedChord = clampChord α 0 := by
      unfold clampChord
      rw [hlen]
      omega
    rw [← h]
    simp only [audioCallback, e]
  · intro hc
    have e : clampChord α ctl.selectedChord = clampChord α 11 := by
      unfold clampChord
      rw [hlen]
      omega
    rw [← h]
    simp only [audioCallback, e]

/-- Witness for C4: selected chord 40 on the start state, 4 frames. -/
theorem audioCallback_clamps_chord_witness :
    (chords ℚ).length = 12 ∧
    ∃ out st2,
      audioCallback (fun x : ℚ => x) 3 ⟨1 / 2, 40, 1, 44100⟩ (fun _ => 0) 4 (startState ℚ) =
        some (out, st2) ∧
      ((40 : Int) < 0 →
        audioCallback (fun x : ℚ => x) 3 ⟨1 / 2, 0, 1, 44100⟩ (fun _ => 0) 4 (startState ℚ) =
          some (out, st2)) ∧
      ((12 : Int) ≤ 40 →
        audioCallback (fun x : ℚ => x) 3 ⟨1 / 2, 11, 1, 44100⟩ (fun _ => 0) 4 (startState ℚ) =
          some (out, st2)) :=
  audioCallback_clamps_chord (fun x : ℚ => x) 3 ⟨1 / 2, 40, 1, 44100⟩ (fun _ => 0) 4
    (startState ℚ) ⟨sized_startState.1, sized_startState.2⟩

/-- C2: for valid chords `c ≠ d`, from every state with the sizing invariant,
`m` frames with chord `c` and then `n` frames with chord `d` both complete, and
the second invocation changes no left or right phase row of any chord other
than `d`; in particular the rows of `c` are those left by the first one. -/
theorem audioCallback_other_chords_frozen (sin : α → α) (pi : α) (ctl1 ctl2 : Controls α)
    (b1 b2 : Nat → α) (m n c d : Nat) (hc : c < 12) (hd : d < 12) (hcd : c ≠ d)
    (_h1 : ctl1.selectedChord = c) (h2 : ctl2.selectedChord = d)
    (st : AudioSynthesizer α) (hs : Sized st) :
    ∃ o1 s1 o2 s2 lrow rrow,
      audioCallback sin pi ctl1 b1 m st = some (o1, s1) ∧
      audioCallback sin pi ctl2 b2 n s1 = some (o2, s2) ∧
      s1.leftPhases[c]? = some lrow ∧ s1.rightPhases[c]? = some rrow ∧
      s2.leftPhases[c]? = some lrow ∧ s2.rightPhases[c]? = some rrow ∧
      ∀ e, e ≠ d → s2.leftPhases[e]? = s1.leftPhases[e]? ∧
        s2.rightPhases[e]? = s1.rightPhases[e]? := by
  have hlen : (chords α).length = 12 := rfl
  obtain ⟨o1, s1, e1, hs1, _, _⟩ := audioCallback_sized sin pi ctl1 b1 m st hs
  have hd2 : clampChord α ctl2.selectedChord = d := by
    unfold clampChord
    rw [hlen, h2]
    omega
  obtain ⟨fs, s2, h, _, ⟨_, hfro⟩, _⟩ := preClipFrames_inv sin pi ctl2.riverVolume
    ctl2.sineVolume ctl2.sampleRate d
    (fun s => Sized s ∧ ∀ e, e ≠ d → s.leftPhases[e]? = s1.leftPhases[e]? ∧
        s.rightPhases[e]? = s1.rightPhases[e]?) (fun _ => True)
    (by
      intro s hi
      obtain ⟨ch, lrow, rrow, _, _, _, _, _, hm, hsz⟩ := mixFrame_sized sin pi ctl2.riverVolume
        ctl2.sineVolume ctl2.sampleRate (c := d) (by rw [hlen]; exact hd) hi.1
      refine ⟨_, _, _, hm, ⟨hsz, ?_⟩, trivial⟩
      intro e he
      have := hi.2 e he
      constructor
      · show (s.leftPhases.set d _)[e]? = _
        rw [List.getElem?_set_ne (Ne.symm he)]
        exact this.1
      · show (s.rightPhases.set d _)[e]? = _
        rw [List.getElem?_set_ne (Ne.symm he)]
        exact this.2)
    n s1 ⟨hs1, fun _ _ => ⟨rfl, rfl⟩⟩
  obtain ⟨ch, hch⟩ := chords_getElem?_of_lt (α := α) (c := c) (by rw [hlen]; exact hc)
  obtain ⟨lrow, rrow, hl, _, hr, _⟩ := hs1.rows hch
  refine ⟨o1, s1, writeFrames 0 b2 fs, s2, lrow, rrow, e1, ?_, hl, hr, ?_, ?_, hfro⟩
  · rw [audioCallback_eq_preClip, hd2, h]; rfl
  · rw [(hfro c hcd).1, hl]
  · rw [(hfro c hcd).2, hr]

/-- Witness for C2: 3 frames of chord 4, then 2 frames of chord 9. -/
theorem audioCallback_other_chords_frozen_witness :
    ∃ o1 s1 o2 s2 lrow rrow,
      audioCallback (fun x : ℚ => x) 3 ⟨0, 4, 1, 44100⟩ (fun _ => 0) 3 (startState ℚ) =
        some (o1, s1) ∧
      audioCallback (fun x : ℚ => x) 3 ⟨0, 9, 1, 44100⟩ (fun _ => 0) 2 s1 = some (o2, s2) ∧
      s1.leftPhases[4]? = some lrow ∧ s1.rightPhases[4]? = some rrow ∧
      s2.leftPhases[4]? = some lrow ∧ s2.rightPhases[4]? = some rrow ∧
      ∀ e, e ≠ 9 → s2.leftPhases[e]? = s1.leftPhases[e]? ∧
        s2.rightPhases[e]? = s1.rightPhases[e]? :=
  audioCallback_other_chords_frozen (fun x : ℚ => x) 3 ⟨0, 4, 1, 44100⟩ ⟨0, 9, 1, 44100⟩
    (fun _ => 0) (fun _ => 0) 3 2 4 9 (by decide) (by decide) (by decide) rfl rfl
    (startState ℚ) ⟨sized_startState.1, sized_startState.2⟩

/-- C7, the code at the failing input: a river buffer of three samples
`[1/10, 2/10, 3/10]` (what `loadRiverSound` leaves for a mono file of three
frames), cursor 0, river volume 1, sine volume 0, three frames.
Frame 0 is `(1/10, 2/10)`; the cursor then stays at 2, and frames 1 and 2 are
`(0, 0)` where the claim has `(1/10, 2/10)` again and the cursor back at 0. -/
theorem river_stalls_on_odd_length :
    ∃ fs st2,
      (loadRiverSound (some (3, 1, [1 / 10, 2 / 10, 3 / 10])) (startState ℚ)).2 =
        { startState ℚ with riverBuffer := [1 / 10, 2 / 10, 3 / 10] } ∧
      runCallbacks (fun x : ℚ => x) 3 [(⟨1, 0, 0, 44100⟩, 3)]
        { startState ℚ with riverBuffer := [1 / 10, 2 / 10, 3 / 10] } = some (fs, st2) ∧
      fs = [(1 / 10, 2 / 10), (0, 0), (0, 0)] ∧ st2.riverBufferPos = 2 := by
  obtain ⟨fs, st2, hrun, hl, -, hp, hall⟩ := runCallbacks_river (fun x : ℚ => x) 3 1
    [(⟨1, 0, 0, 44100⟩, 3)] (by intro c hc; simp at hc; rw [hc]; exact ⟨rfl, rfl⟩)
    { startState ℚ with riverBuffer := [1 / 10, 2 / 10, 3 / 10] }
    ⟨sized_startState.1, sized_startState.2⟩
  have hc : ∀ k, cursorAfter 3 k 0 = 2 * min k 1 := by
    intro k
    have := cursorAfter_odd 1 k 0 (by omega)
    simpa using this
  have hl2 : fs.length = 3 := hl
  have hp2 : st2.riverBufferPos = cursorAfter 3 3 0 := hp
  have hall2 : ∀ i, i < 3 → fs[i]? = some
      ((ambientAt ([1 / 10, 2 / 10, 3 / 10] : List ℚ) (cursorAfter 3 i 0)).1 * 1,
        (ambientAt ([1 / 10, 2 / 10, 3 / 10] : List ℚ) (cursorAfter 3 i 0)).2 * 1) := hall
  refine ⟨fs, st2, ?_, hrun, ?_, ?_⟩
  · simp [loadRiverSound, resize, startState]
  · have h0 := hall2 0 (by norm_num)
    have h1 := hall2 1 (by norm_num)
    have h2 := hall2 2 (by norm_num)
    rw [hc] at h0 h1 h2
    simp only [ambientAt, mul_one] at h0 h1 h2
    match fs, hl2, h0, h1, h2 with
    | [a, b, c], _, h0, h1, h2 =>
      simp at h0 h1 h2
      rw [h0, h1, h2]
      norm_num
  · rw [hp2, hc]
    rfl

/-- C9: `readChannel` returns a value in `[0, 1023]`; for all readings
`knob1`, `knob2` in that range one pass of the control loop computes
`group = ⌊(knob1/1023)·2.99⌋` in `[0, 2]` and
`chordInGroup = ⌊(knob2/1023)·3.99⌋` in `[0, 3]` (truncation and floor agree,
the products being non-negative), stores `group·4 + chordInGroup`, which lies
in `[0, 11]`, and that value is a valid index into the 12-entry chord table,
left unchanged by the callback's clamp. -/
theorem control_chord_index_valid [FloorRing α] (knob0 knob1 knob2 knob3 : Nat)
    (h1 : knob1 ≤ 1023) (h2 : knob2 ≤ 1023) (ctl : Controls α) :
    (∀ channel ioctlResult rx1 rx2, readChannel channel ioctlResult rx1 rx2 ≤ 1023) ∧
    chordGroup α knob1 = ⌊((knob1 : α) / 1023) * 2.99⌋ ∧
    0 ≤ chordGroup α knob1 ∧ chordGroup α knob1 ≤ 2 ∧
    chordInGroup α knob2 = ⌊((knob2 : α) / 1023) * 3.99⌋ ∧
    0 ≤ chordInGroup α knob2 ∧ chordInGroup α knob2 ≤ 3 ∧
    (controlStep knob0 knob1 knob2 knob3 ctl).selectedChord =
      chordGroup α knob1 * 4 + chordInGroup α knob2 ∧
    0 ≤ (controlStep knob0 knob1 knob2 knob3 ctl).selectedChord ∧
    (controlStep knob0 knob1 knob2 knob3 ctl).selectedChord ≤ 11 ∧
    (chords α).length = 12 ∧
    ((clampChord α (controlStep knob0 knob1 knob2 knob3 ctl).selectedChord : Nat) : Int) =
      (controlStep knob0 knob1 knob2 knob3 ctl).selectedChord := by
  have hlen : (chords α).length = 12 := rfl
  obtain ⟨g1, g2, g3⟩ := truncToInt_scaled (α := α) knob1 h1 2.99 (by norm_num) 3 (by norm_num)
  obtain ⟨c1, c2, c3⟩ := truncToInt_scaled (α := α) knob2 h2 3.99 (by norm_num) 4 (by norm_num)
  have hsel : (controlStep knob0 knob1 knob2 knob3 ctl).selectedChord =
      chordGroup α knob1 * 4 + chordInGroup α knob2 := rfl
  refine ⟨readChannel_le, g1, g2, by unfold chordGroup; omega, c1, c2,
    by unfold chordInGroup; omega, hsel, ?_, ?_, hlen, ?_⟩
  · rw [hsel]; unfold chordGroup chordInGroup; omega
  · rw [hsel]; unfold chordGroup chordInGroup; omega
  · rw [hsel]
    unfold clampChord chordGroup chordInGroup
    rw [hlen]
    omega

/-- Witness for C9: knobs 1 and 2 at full scale (reading 1023). -/
theorem control_chord_index_valid_witness :
    (∀ channel ioctlResult rx1 rx2, readChannel channel ioctlResult rx1 rx2 ≤ 1023) ∧
    chordGroup ℚ 1023 = ⌊((1023 : Nat) : ℚ) / 1023 * 2.99⌋ ∧
    0 ≤ chordGroup ℚ 1023 ∧ chordGroup ℚ 1023 ≤ 2 ∧
    chordInGroup ℚ 1023 = ⌊((1023 : Nat) : ℚ) / 1023 * 3.99⌋ ∧
    0 ≤ chordInGroup ℚ 1023 ∧ chordInGroup ℚ 1023 ≤ 3 ∧
    (controlStep 512 1023 1023 512 (⟨0, 0, 0, 44100⟩ : Controls ℚ)).selectedChord =
      chordGroup ℚ 1023 * 4 + chordInGroup ℚ 1023 ∧
    0 ≤ (controlStep 512 1023 1023 512 (⟨0, 0, 0, 44100⟩ : Controls ℚ)).selectedChord ∧
    (controlStep 512 1023 1023 512 (⟨0, 0, 0, 44100⟩ : Controls ℚ)).selectedChord ≤ 11 ∧
    (chords ℚ).length = 12 ∧
    ((clampChord ℚ
      (controlStep 512 1023 1023 512 (⟨0, 0, 0, 44100⟩ : Controls ℚ)).selectedChord : Nat) :
        Int) =
      (controlStep 512 1023 1023 512 (⟨0, 0, 0, 44100⟩ : Controls ℚ)).selectedChord :=
  control_chord_index_valid 512 1023 1023 512 (by norm_num) (by norm_num) ⟨0, 0, 0, 44100⟩

end Claims

/-! ## The claims settled in float arithmetic -/

section FloatClaims

variable {α : Type} [LinearOrderedField α]

open Ieee

/-- C6 (amended): in float arithmetic (rounding fixes 0, `FLT_MAX ≥ 0`), with
the river buffer empty and the sine volume 0, from every state with the sizing
invariant, for every selected chord, sample rate, river volume and frame
count, the callback returns; every frame that starts with all phase
accumulators of the selected chord finite has both pre-clip sums exactly 0;
and when that is so for every frame of the invocation, every position a frame
addresses holds exactly 0 afterwards and every other position is unchanged. -/
theorem silence_while_phases_finite (E : FloatEnv α) (hr0 : E.rnd 0 = 0) (hmax : 0 ≤ E.fltMax)
    (ctl : Controls (Fl α)) (buffer : Nat → Fl α) (n : Nat) (st : AudioSynthesizer (Fl α))
    (hs : Ieee.Sized st) (hb : st.riverBuffer = []) (hv : ctl.sineVolume = Fl.fin 0) :
    ∃ fs out st2,
      Ieee.frameRecords E ctl.riverVolume ctl.sineVolume ctl.sampleRate
        (clampChord α ctl.selectedChord) n st = some (fs, st2) ∧ fs.length = n ∧
      Ieee.audioCallback E ctl buffer n st = some (out, st2) ∧
      (∀ f ∈ fs, f.chord = clampChord α ctl.selectedChord) ∧
      (∀ f ∈ fs, Ieee.phasesFinite f.before f.chord = true →
        f.left = Fl.fin 0 ∧ f.right = Fl.fin 0) ∧
      ((∀ f ∈ fs, Ieee.phasesFinite f.before f.chord = true) →
        (∀ i, i < n →
          out (i * 2 % 4294967296) = Fl.fin 0 ∧ out ((i * 2 + 1) % 4294967296) = Fl.fin 0) ∧
        ∀ idx, out idx = Fl.fin 0 ∨ out idx = buffer idx) := by
  have hc := clampChord_lt (α := α) ctl.selectedChord
  obtain ⟨fs, st2, h, hl, _, hall⟩ := frameRecords_inv E ctl.riverVolume ctl.sineVolume
    ctl.sampleRate (clampChord α ctl.selectedChord)
    (fun s => Ieee.Sized s ∧ s.riverBuffer = [])
    (by
      intro s hi
      obtain ⟨ch, lrow, rrow, _, _, _, _, _, hm, hsz⟩ := mixFrame_fl_sized E ctl.riverVolume
        ctl.sineVolume ctl.sampleRate hc hi.1
      exact ⟨_, _, _, hm, hsz, hi.2⟩)
    n st ⟨hs, hb⟩
  have hzero : ∀ f ∈ fs, Ieee.phasesFinite f.before f.chord = true →
      f.left = Fl.fin 0 ∧ f.right = Fl.fin 0 := by
    intro f hf hfin
    obtain ⟨⟨hsz, hbuf⟩, hch, s2, hm⟩ := hall f hf
    obtain ⟨ch, lrow, rrow, _, hlr, _, hrr, _, hm2, _⟩ := mixFrame_fl_sized E ctl.riverVolume
      ctl.sineVolume ctl.sampleRate hc hsz
    rw [hm2] at hm
    simp only [Option.some.injEq, Prod.mk.injEq] at hm
    rw [hch] at hfin
    obtain ⟨hfl, hfr⟩ := rows_finite_of_phasesFinite hlr hrr hfin
    rw [← hm.1, ← hm.2.1, hv, riverAdd_nil E hbuf, riverAdd_nil E hbuf]
    exact ⟨oscSum_silent E hr0 hmax lrow _ hfl (toFloat_zero E hr0 hmax),
      oscSum_silent E hr0 hmax rrow _ hfr (toFloat_zero E hr0 hmax)⟩
  refine ⟨fs, writeRecords 0 buffer fs, st2, h, hl, by rw [audioCallback_eq_records, h]; rfl,
    fun f hf => (hall f hf).2.1, hzero, ?_⟩
  intro hfin
  have hP : ∀ f ∈ fs, Ieee.clip f.left = (Fl.fin 0 : Fl α) ∧
      Ieee.clip f.right = (Fl.fin 0 : Fl α) := by
    intro f hf
    obtain ⟨h1, h2⟩ := hzero f hf (hfin f hf)
    rw [h1, h2]
    exact ⟨clip_fin_zero, clip_fin_zero⟩
  constructor
  · intro i hi
    constructor
    · exact writeRecords_prop (fun v => v = Fl.fin 0) fs 0 buffer _ hP
        (Or.inr ⟨i, by omega, Or.inl (by simp)⟩)
    · exact writeRecords_prop (fun v => v = Fl.fin 0) fs 0 buffer _ hP
        (Or.inr ⟨i, by omega, Or.inr (by simp)⟩)
  · intro idx
    by_cases hw : ∃ j, j < fs.length ∧
        (idx = (0 + j) * 2 % 4294967296 ∨ idx = ((0 + j) * 2 + 1) % 4294967296)
    · exact Or.inl (writeRecords_prop (fun v => v = Fl.fin 0) fs 0 buffer _ hP (Or.inr hw))
    · right
      apply writeRecords_untouched
      intro j hj
      constructor
      · intro e; exact hw ⟨j, hj, Or.inl e⟩
      · intro e; exact hw ⟨j, hj, Or.inr e⟩

theorem frameRecords_succ_of (E : FloatEnv α) {g sv sr : Fl α} {c k : Nat}
    {st s2 st3 : AudioSynthesizer (Fl α)} {l r : Fl α} {fs : List (FrameRecord α)}
    (hm : Ieee.mixFrame E g sv sr c st = some (l, r, s2))
    (hrest : Ieee.frameRecords E g sv sr c k s2 = some (fs, st3)) :
    Ieee.frameRecords E g sv sr c (k + 1) st = some (⟨c, st, l, r⟩ :: fs, st3) := by
  rw [Ieee.frameRecords]
  simp only [hm, hrest, Option.bind_eq_bind, Option.some_bind]

/-- At sample rate 0 the phase of a partial of positive frequency becomes
`+inf` in one frame. -/
theorem advancePhase_zero_rate (E : FloatEnv α) (hpi : 0 < E.pi) {f : α} (hf : 0 < f) :
    Ieee.advancePhase E (Fl.fin 0) f (Fl.fin 0) = Fl.posInf := by
  have hpos : 0 < 2 * E.pi * f := by positivity
  have hdiv : (Fl.fin (2 * E.pi * f) / Fl.fin 0 : Fl α) = Fl.posInf := by
    show Fl.div (Fl.fin (2 * E.pi * f)) (Fl.fin 0) = _
    simp [Fl.div, Fl.infTimes, ne_of_gt hpos, hpos]
  have hadd : (Fl.fin 0 + Fl.posInf : Fl α) = Fl.posInf := rfl
  have hsub : (Fl.posInf - Fl.fin (2 * E.pi) : Fl α) = Fl.posInf := rfl
  unfold Ieee.advancePhase
  simp only [fl_fin_mul_fin, hdiv, hadd, toFloat_posInf, Fl.lt, if_true, hsub]

/-- At sample rate 0, from the initialised state with any river buffer, the
second frame of chord 0 has both pre-clip sums NaN, whatever the gains. -/
theorem zero_rate_second_frame (E : FloatEnv α) (hpi : 0 < E.pi) (g sv : Fl α)
    (buf : List (Fl α)) :
    ∃ f0 f1 st2,
      Ieee.frameRecords E g sv (Fl.fin 0) 0 2
        { Ieee.startState α with riverBuffer := buf } = some ([f0, f1], st2) ∧
      f1.left = Fl.nan ∧ f1.right = Fl.nan := by
  have hlen : (0 : Nat) < (chords α).length := by
    rw [show (chords α).length = 12 from rfl]; norm_num
  obtain ⟨ch, lrow, rrow, hch, hl, _, hr, _, hm, hsz⟩ := mixFrame_fl_sized E g sv (Fl.fin 0)
    hlen (sized_fl_startState (α := α) buf 0)
  have hch0 : ch = ⟨[300], [310]⟩ := by
    simp only [chords, List.getElem?_cons_zero, Option.some.injEq] at hch
    exact hch.symm
  have hl0 : lrow = [Fl.fin 0] := by
    simp only [Ieee.startState, chords, List.map_cons, List.getElem?_cons_zero,
      Option.some.injEq, List.map_nil] at hl
    exact hl.symm
  have hr0 : rrow = [Fl.fin 0] := by
    simp only [Ieee.startState, chords, List.map_cons, List.getElem?_cons_zero,
      Option.some.injEq, List.map_nil] at hr
    exact hr.symm
  subst hch0 hl0 hr0
  simp only [List.zipWith_cons_cons, List.zipWith_nil_right,
    advancePhase_zero_rate E hpi (show (0 : α) < 300 by norm_num),
    advancePhase_zero_rate E hpi (show (0 : α) < 310 by norm_num)] at hm hsz
  obtain ⟨ch2, lrow2, rrow2, _, hl2, _, hr2, _, hm2, _⟩ := mixFrame_fl_sized E g sv (Fl.fin 0)
    hlen hsz
  have hl3 : lrow2 = [Fl.posInf] := by
    simp only [Ieee.startState, chords, List.map_cons, List.set_cons_zero,
      List.getElem?_cons_zero, Option.some.injEq] at hl2
    exact hl2.symm
  have hr3 : rrow2 = [Fl.posInf] := by
    simp only [Ieee.startState, chords, List.map_cons, List.set_cons_zero,
      List.getElem?_cons_zero, Option.some.injEq] at hr2
    exact hr2.symm
  subst hl3 hr3
  rw [oscSum_of_not_finite E sv _ Fl.posInf [] rfl,
    oscSum_of_not_finite E sv _ Fl.posInf [] rfl] at hm2
  exact ⟨_, _, _, frameRecords_succ_of E hm (frameRecords_succ_of E hm2 rfl), rfl, rfl⟩

/-- C6 as stated fails: over the reals with `Real.sin` and `Real.pi` (exact
rounding), at sample rate 0 with the river buffer empty and sine volume 0,
the first frame of chord 0 makes the phases `+inf`, the second frame's sums
are `sin(inf)·0·0.1 = NaN`, and the clamp writes 1 at positions 2 and 3. -/
theorem silence_fails_at_zero_rate :
    ∃ out st2,
      Ieee.audioCallback
        (⟨Real.sin, Real.pi, id, 340282346638528859811704183484516925440⟩ : FloatEnv ℝ)
        ⟨Fl.fin 1, 0, Fl.fin 0, Fl.fin 0⟩ (fun _ => Fl.fin 0) 2 (Ieee.startState ℝ) =
        some (out, st2) ∧
      (Ieee.startState ℝ).riverBuffer = [] ∧ out 2 = Fl.fin 1 ∧ out 3 = Fl.fin 1 := by
  obtain ⟨f0, f1, st2, h, hl, hr⟩ := zero_rate_second_frame
    (⟨Real.sin, Real.pi, id, 340282346638528859811704183484516925440⟩ : FloatEnv ℝ)
    Real.pi_pos (Fl.fin 1) (Fl.fin 0) []
  have hcl : clampChord ℝ 0 = 0 := rfl
  have hst : ({ Ieee.startState ℝ with riverBuffer := [] } : AudioSynthesizer (Fl ℝ)) =
      Ieee.startState ℝ := rfl
  rw [hst] at h
  refine ⟨writeRecords 0 (fun _ => Fl.fin 0) [f0, f1], st2, ?_, rfl, ?_, ?_⟩
  · rw [audioCallback_eq_records]
    simp only [hcl, h, Option.map_some']
  · simp [writeRecords, hl, clip_nan]
  · simp [writeRecords, hr, clip_nan]

/-- Witness for C6 (amended): the evaluation environment, chord 5, sample rate
48000, river volume 3, five frames from the initialised state; the phases stay
finite, so every written sample is 0. -/
theorem silence_while_phases_finite_witness :
    ∃ fs out st2,
      Ieee.frameRecords evalEnv (Fl.fin 3) (Fl.fin 0) (Fl.fin 48000) (clampChord ℚ 5) 5
        (Ieee.startState ℚ) = some (fs, st2) ∧
      Ieee.audioCallback evalEnv ⟨Fl.fin 3, 5, Fl.fin 0, Fl.fin 48000⟩ (fun _ => Fl.fin 9) 5
        (Ieee.startState ℚ) = some (out, st2) ∧
      (∀ f ∈ fs, Ieee.phasesFinite f.before f.chord = true) ∧
      (∀ f ∈ fs, f.left = Fl.fin 0 ∧ f.right = Fl.fin 0) ∧
      (∀ i, i < 5 →
        out (i * 2 % 4294967296) = Fl.fin 0 ∧ out ((i * 2 + 1) % 4294967296) = Fl.fin 0) := by
  obtain ⟨hpi, hmono, hr0, hTm, hrep, hdown, hlt, hmax⟩ := evalEnv_props
  have hmax0 : (0 : ℚ) ≤ evalEnv.fltMax := by linarith
  obtain ⟨fs, out, st2, h, _, hcb, _, hzero, hall⟩ := silence_while_phases_finite evalEnv hr0
    hmax0 ⟨Fl.fin 3, 5, Fl.fin 0, Fl.fin 48000⟩ (fun _ => Fl.fin 9) 5 (Ieee.startState ℚ)
    (sized_fl_startState (α := ℚ) [] 0) rfl rfl
  obtain ⟨fs2, st3, h2, _, _, hin⟩ := frameRecords_inv evalEnv (Fl.fin 3) (Fl.fin 0)
    (Fl.fin 48000) (clampChord ℚ 5)
    (fun s => Ieee.Sized s ∧ PhasesWithin (13176794 / 2097152) s)
    (by
      intro s hs
      obtain ⟨l, r, s2, hm, h1, h2⟩ := mixFrame_fl_within evalEnv (Fl.fin 3) (Fl.fin 0) hpi hmono
        hr0 hTm hrep hdown hlt hmax (show (922 : ℚ) ≤ 48000 by norm_num)
        (clampChord_lt (α := ℚ) 5) hs.1 hs.2
      exact ⟨l, r, s2, hm, h1, h2⟩)
    5 (Ieee.startState ℚ)
    ⟨sized_fl_startState (α := ℚ) [] 0, startState_fl_within (by norm_num) [] 0⟩
  have hsame : fs2 = fs := by
    have := h.symm.trans h2
    simp only [Option.some.injEq, Prod.mk.injEq] at this
    exact this.1.symm
  subst hsame
  have hfin : ∀ f ∈ fs2, Ieee.phasesFinite f.before f.chord = true :=
    fun f hf => phasesFinite_of_within (hin f hf).1.2 f.chord
  exact ⟨fs2, out, st2, h, hcb, hfin, fun f hf => hzero f hf (hfin f hf), (hall hfin).1⟩

/-- C3 (amended): in float arithmetic (rounding idempotent and fixing 0,
`FLT_MAX ≥ 0`), on a river buffer of exactly `2F` samples (`F ≥ 1`) with the
cursor at 0, for every sequence of invocations with river volume `g` and sine
volume 0 that produces `2F` frames in all, the run completes and the cursor is
0 again afterwards; and every frame `k < 2F` that starts with all phase
accumulators of its selected chord finite has the pre-clip sums
`(g·buf[2(k mod F)], g·buf[2(k mod F)+1])`, the products being `float`
products. -/
theorem river_loops_while_phases_finite (E : FloatEnv α) (hr0 : E.rnd 0 = 0)
    (hidem : ∀ x, E.rnd (E.rnd x) = E.rnd x) (hmax : 0 ≤ E.fltMax) (g : Fl α) (F : Nat)
    (hF : 1 ≤ F) (st : AudioSynthesizer (Fl α)) (hs : Ieee.Sized st)
    (hlen : st.riverBuffer.length = 2 * F) (hpos : st.riverBufferPos = 0)
    (calls : List (Controls (Fl α) × Nat))
    (hctl : ∀ c ∈ calls, c.1.riverVolume = g ∧ c.1.sineVolume = Fl.fin 0)
    (htotal : (calls.map (fun c => c.2)).sum = 2 * F) :
    ∃ fs st2, Ieee.runCallbacks E calls st = some (fs, st2) ∧ fs.length = 2 * F ∧
      (∀ k f, fs[k]? = some f → Ieee.phasesFinite f.before f.chord = true →
        ∃ a b, st.riverBuffer[2 * (k % F)]? = some a ∧
          st.riverBuffer[2 * (k % F) + 1]? = some b ∧
          f.left = E.toFloat (g * a) ∧ f.right = E.toFloat (g * b)) ∧
      st2.riverBufferPos = 0 ∧ st2.riverBuffer = st.riverBuffer := by
  obtain ⟨fs, st2, hrun, hl, hb, hp, hall⟩ :=
    runCallbacks_fl_cursor E g (Fl.fin 0) calls hctl st hs
  have hF0 : 0 < F := hF
  have hcur : ∀ k, cursorAfter (2 * F) k 0 = 2 * (k % F) := by
    intro k
    have := cursorAfter_even hF0 k 0
    simpa using this
  rw [htotal] at hl hp
  rw [hlen, hpos] at hp hall
  refine ⟨fs, st2, hrun, hl, ?_, ?_, hb⟩
  · intro k f hf hfin
    have hk : k < 2 * F := by
      have := lt_length_of_getElem? hf
      omega
    have hm : k % F < F := Nat.mod_lt _ hF0
    have h0 : 2 * (k % F) < st.riverBuffer.length := by omega
    have h1 : 2 * (k % F) + 1 < st.riverBuffer.length := by omega
    obtain ⟨hsz, hc, hbuf, hcp, sr, s2, hmix⟩ := hall k f hf
    rw [hcur k] at hcp
    obtain ⟨ch, lrow, rrow, _, hlr, _, hrr, _, hm2, _⟩ :=
      mixFrame_fl_sized E g (Fl.fin 0) sr hc hsz
    rw [hm2] at hmix
    simp only [Option.some.injEq, Prod.mk.injEq] at hmix
    obtain ⟨hfl, hfr⟩ := rows_finite_of_phasesFinite hlr hrr hfin
    have hadd : ∀ off, off ≤ 1 → riverAdd E f.before g (Fl.fin 0) off =
        E.toFloat (g * (st.riverBuffer.getD (2 * (k % F) + off) (Fl.fin 0))) := by
      intro off hoff
      unfold riverAdd
      rw [hbuf, hcp, if_pos h1, fl_zero_add, toFloat_idem E hidem, fl_mul_comm]
    refine ⟨st.riverBuffer[2 * (k % F)], st.riverBuffer[2 * (k % F) + 1],
      List.getElem?_eq_getElem h0, List.getElem?_eq_getElem h1, ?_, ?_⟩
    · rw [← hmix.1, hadd 0 (by omega),
        oscSum_silent E hr0 hmax lrow _ hfl (toFloat_idem E hidem _)]
      simp [List.getD_eq_getElem?_getD, List.getElem?_eq_getElem h0]
    · rw [← hmix.2.1, hadd 1 (by omega),
        oscSum_silent E hr0 hmax rrow _ hfr (toFloat_idem E hidem _)]
      simp [List.getD_eq_getElem?_getD, List.getElem?_eq_getElem h1]
  · rw [hp, hcur]
    simp

/-- C3 as stated fails: over the reals with `Real.sin` and `Real.pi` (exact
rounding), on the river buffer `[1/10, 2/10]` (`F = 1`) with river volume 1,
sine volume 0 and sample rate 0, the second of the two frames has the pre-clip
sums NaN where the claim has `(1/10, 2/10)`. -/
theorem river_loop_fails_at_zero_rate :
    ∃ f0 f1 st2,
      Ieee.runCallbacks
        (⟨Real.sin, Real.pi, id, 340282346638528859811704183484516925440⟩ : FloatEnv ℝ)
        [(⟨Fl.fin 1, 0, Fl.fin 0, Fl.fin 0⟩, 2)]
        { Ieee.startState ℝ with riverBuffer := [Fl.fin (1 / 10), Fl.fin (2 / 10)] } =
        some ([f0, f1], st2) ∧
      f1.left = Fl.nan ∧ f1.right = Fl.nan := by
  obtain ⟨f0, f1, st2, h, hl, hr⟩ := zero_rate_second_frame
    (⟨Real.sin, Real.pi, id, 340282346638528859811704183484516925440⟩ : FloatEnv ℝ)
    Real.pi_pos (Fl.fin 1) (Fl.fin 0) [Fl.fin (1 / 10), Fl.fin (2 / 10)]
  have hcl : clampChord ℝ 0 = 0 := rfl
  refine ⟨f0, f1, st2, ?_, hl, hr⟩
  rw [runCallbacks_fl_cons]
  simp only [hcl, h, Option.bind_eq_bind, Option.some_bind, Ieee.runCallbacks, List.append_nil]

theorem frameRecords_zero (E : FloatEnv α) (g sv sr : Fl α) (c : Nat)
    (st : AudioSynthesizer (Fl α)) :
    Ieee.frameRecords E g sv sr c 0 st = some ([], st) := rfl

theorem evalEnv_rnd_idem (x : ℚ) : evalEnv.rnd (evalEnv.rnd x) = evalEnv.rnd x := by
  have hfl : ∀ y : ℚ, evalEnv.rnd y = (⌊y * 2097152⌋ : ℚ) / 2097152 := fun _ => rfl
  rw [hfl, hfl]
  have : ((⌊x * 2097152⌋ : ℚ) / 2097152 * 2097152) = ((⌊x * 2097152⌋ : ℤ) : ℚ) := by
    field_simp
  rw [this, Int.floor_intCast]

/-- Along a run whose sample rates are all at least 922 Hz, from a state with
the sizing invariant and all phases in `[0, Tm]`, every frame starts from such
a state and the run ends in one. -/
theorem runCallbacks_fl_within (E : FloatEnv α) {Tm : α} (hpi : 0 < E.pi)
    (hmono : Monotone E.rnd) (hr0 : E.rnd 0 = 0) (hTm : E.rnd Tm = Tm)
    (hrep : ∀ y, E.rnd y ≤ 2 * E.pi → E.rnd y ≤ Tm)
    (hdown : E.rnd (Tm + 2 * E.pi) ≤ Tm + 2 * E.pi) (hlt : Tm < 2 * E.pi)
    (hmax : 4 * E.pi ≤ E.fltMax) (calls : List (Controls (Fl α) × Nat))
    (hsr : ∀ c ∈ calls, ∃ sr, c.1.sampleRate = Fl.fin sr ∧ 922 ≤ sr)
    (st : AudioSynthesizer (Fl α)) (hs : Ieee.Sized st) (hw : PhasesWithin Tm st) :
    ∃ fs st2, Ieee.runCallbacks E calls st = some (fs, st2) ∧
      fs.length = (calls.map (fun c => c.2)).sum ∧
      (Ieee.Sized st2 ∧ PhasesWithin Tm st2) ∧
      ∀ f ∈ fs, Ieee.Sized f.before ∧ PhasesWithin Tm f.before :=
  runCallbacks_fl_inv E (fun s => Ieee.Sized s ∧ PhasesWithin Tm s) calls
    (by
      intro c hc s hi
      obtain ⟨sr, hsr1, hsr2⟩ := hsr c hc
      rw [hsr1]
      obtain ⟨l, r, s2, hm, h1, h2⟩ := mixFrame_fl_within E c.1.riverVolume c.1.sineVolume hpi
        hmono hr0 hTm hrep hdown hlt hmax hsr2 (clampChord_lt (α := α) c.1.selectedChord)
        hi.1 hi.2
      exact ⟨l, r, s2, hm, h1, h2⟩)
    st ⟨hs, hw⟩

/-- Witness for C3 (amended): the evaluation environment, two whole frames
`[1/8, 2/8, 3/8, 4/8]`, river volume 1/2, an invocation of one frame with chord
2 at 44100 Hz and one of three frames with chord 9 at 48000 Hz; the phases
stay finite, so every frame is the buffer frame times the volume. -/
theorem river_loops_while_phases_finite_witness :
    ∃ fs st2,
      Ieee.runCallbacks evalEnv
        [(⟨Fl.fin (1 / 2), 2, Fl.fin 0, Fl.fin 44100⟩, 1),
          (⟨Fl.fin (1 / 2), 9, Fl.fin 0, Fl.fin 48000⟩, 3)]
        { Ieee.startState ℚ with
          riverBuffer := [Fl.fin (1 / 8), Fl.fin (2 / 8), Fl.fin (3 / 8), Fl.fin (4 / 8)] } =
        some (fs, st2) ∧ fs.length = 2 * 2 ∧
      (∀ k f, fs[k]? = some f →
        ∃ a b,
          ([Fl.fin (1 / 8), Fl.fin (2 / 8), Fl.fin (3 / 8), Fl.fin (4 / 8)] :
            List (Fl ℚ))[2 * (k % 2)]? = some a ∧
          ([Fl.fin (1 / 8), Fl.fin (2 / 8), Fl.fin (3 / 8), Fl.fin (4 / 8)] :
            List (Fl ℚ))[2 * (k % 2) + 1]? = some b ∧
          f.left = evalEnv.toFloat (Fl.fin (1 / 2) * a) ∧
          f.right = evalEnv.toFloat (Fl.fin (1 / 2) * b)) ∧
      st2.riverBufferPos = 0 := by
  obtain ⟨hpi, hmono, hr0, hTm, hrep, hdown, hlt, hmax⟩ := evalEnv_props
  have hmax0 : (0 : ℚ) ≤ evalEnv.fltMax := by linarith
  have hctl : ∀ c ∈ [((⟨Fl.fin (1 / 2), 2, Fl.fin 0, Fl.fin 44100⟩ : Controls (Fl ℚ)), 1),
      ((⟨Fl.fin (1 / 2), 9, Fl.fin 0, Fl.fin 48000⟩ : Controls (Fl ℚ)), 3)],
      c.1.riverVolume = Fl.fin (1 / 2) ∧ c.1.sineVolume = Fl.fin 0 := by
    intro c hc
    simp only [List.mem_cons, List.mem_singleton, List.not_mem_nil, or_false] at hc
    rcases hc with h | h <;> rw [h] <;> exact ⟨rfl, rfl⟩
  have hsr : ∀ c ∈ [((⟨Fl.fin (1 / 2), 2, Fl.fin 0, Fl.fin 44100⟩ : Controls (Fl ℚ)), 1),
      ((⟨Fl.fin (1 / 2), 9, Fl.fin 0, Fl.fin 48000⟩ : Controls (Fl ℚ)), 3)],
      ∃ sr, c.1.sampleRate = Fl.fin sr ∧ (922 : ℚ) ≤ sr := by
    intro c hc
    simp only [List.mem_cons, List.mem_singleton, List.not_mem_nil, or_false] at hc
    rcases hc with h | h <;> rw [h]
    · exact ⟨44100, rfl, by norm_num⟩
    · exact ⟨48000, rfl, by norm_num⟩
  obtain ⟨fs, st2, hrun, hl, hframes, hp, _⟩ := river_loops_while_phases_finite evalEnv hr0
    evalEnv_rnd_idem hmax0 (Fl.fin (1 / 2)) 2 (by decide)
    { Ieee.startState ℚ with
      riverBuffer := [Fl.fin (1 / 8), Fl.fin (2 / 8), Fl.fin (3 / 8), Fl.fin (4 / 8)] }
    (sized_fl_startState (α := ℚ) _ 0) rfl rfl _ hctl rfl
  obtain ⟨fs2, st3, hrun2, _, _, hin⟩ := runCallbacks_fl_within evalEnv hpi hmono hr0 hTm hrep
    hdown hlt hmax _ hsr
    { Ieee.startState ℚ with
      riverBuffer := [Fl.fin (1 / 8), Fl.fin (2 / 8), Fl.fin (3 / 8), Fl.fin (4 / 8)] }
    (sized_fl_startState (α := ℚ) _ 0) (startState_fl_within (by norm_num) _ 0)
  have hsame : fs2 = fs := by
    have := hrun.symm.trans hrun2
    simp only [Option.some.injEq, Prod.mk.injEq] at this
    exact this.1.symm
  subst hsame
  refine ⟨fs2, st2, hrun, hl, ?_, hp⟩
  intro k f hf
  exact hframes k f hf (phasesFinite_of_within (hin f (List.getElem?_mem hf)).2 f.chord)

/-- C8 (amended): in float arithmetic, starting from the initialised state
(all phases 0, any river buffer and cursor), for every sequence of invocations
(any selected chords, gains and frame counts) whose sample rates are at least
922 Hz, the run completes, and in the state every frame starts from and in the
final state every left and right phase accumulator of every chord is a finite
`p` with `0 ≤ p < 2π`.  The rounding to `float` is monotone and fixes 0;
`Tm` is the largest `float` not above `2·M_PI`, it lies below `2·M_PI` (no
`float` equals that `double`), and `Tm + 2·M_PI` is not rounded upwards;
`FLT_MAX` is at least `4·M_PI`. -/
theorem phases_below_two_pi (E : FloatEnv α) (Tm : α) (hpi : 0 < E.pi)
    (hmono : Monotone E.rnd) (hr0 : E.rnd 0 = 0) (hTm : E.rnd Tm = Tm)
    (hrep : ∀ y, E.rnd y ≤ 2 * E.pi → E.rnd y ≤ Tm)
    (hdown : E.rnd (Tm + 2 * E.pi) ≤ Tm + 2 * E.pi) (hlt : Tm < 2 * E.pi)
    (hmax : 4 * E.pi ≤ E.fltMax) (buf : List (Fl α)) (pos : Nat)
    (calls : List (Controls (Fl α) × Nat))
    (hsr : ∀ c ∈ calls, ∃ sr, c.1.sampleRate = Fl.fin sr ∧ 922 ≤ sr) :
    ∃ fs st,
      Ieee.runCallbacks E calls
        { Ieee.startState α with riverBuffer := buf, riverBufferPos := pos } = some (fs, st) ∧
      (∀ f ∈ fs, ∀ row ∈ f.before.leftPhases ++ f.before.rightPhases, ∀ p ∈ row,
        ∃ x, p = Fl.fin x ∧ 0 ≤ x ∧ x < 2 * E.pi) ∧
      ∀ row ∈ st.leftPhases ++ st.rightPhases, ∀ p ∈ row,
        ∃ x, p = Fl.fin x ∧ 0 ≤ x ∧ x < 2 * E.pi := by
  have hTm0 : 0 ≤ Tm := by
    have := hrep 0 (by rw [hr0]; linarith)
    rwa [hr0] at this
  obtain ⟨fs, st, hrun, _, hfinal, hin⟩ := runCallbacks_fl_within E hpi hmono hr0 hTm hrep hdown
    hlt hmax calls hsr { Ieee.startState α with riverBuffer := buf, riverBufferPos := pos }
    (sized_fl_startState buf pos) (startState_fl_within hTm0 buf pos)
  refine ⟨fs, st, hrun, ?_, ?_⟩
  · intro f hf row hrow p hp
    obtain ⟨x, hx, h0, h1⟩ := (hin f hf).2 row hrow p hp
    exact ⟨x, hx, h0, lt_of_le_of_lt h1 hlt⟩
  · intro row hrow p hp
    obtain ⟨x, hx, h0, h1⟩ := hfinal.2 row hrow p hp
    exact ⟨x, hx, h0, lt_of_le_of_lt h1 hlt⟩

/-- Witness for C8 (amended): the evaluation environment with
`Tm = 13176794 / 2^21`, chord 4 for 256 frames and then chord 11 for 256
frames at 44100 Hz. -/
theorem phases_below_two_pi_witness :
    ∃ fs st,
      Ieee.runCallbacks evalEnv
        [(⟨Fl.fin (1 / 2), 4, Fl.fin (1 / 2), Fl.fin 44100⟩, 256),
          (⟨Fl.fin (1 / 2), 11, Fl.fin (1 / 2), Fl.fin 44100⟩, 256)]
        { Ieee.startState ℚ with riverBuffer := [], riverBufferPos := 0 } = some (fs, st) ∧
      (∀ f ∈ fs, ∀ row ∈ f.before.leftPhases ++ f.before.rightPhases, ∀ p ∈ row,
        ∃ x, p = Fl.fin x ∧ 0 ≤ x ∧ x < 2 * evalEnv.pi) ∧
      ∀ row ∈ st.leftPhases ++ st.rightPhases, ∀ p ∈ row,
        ∃ x, p = Fl.fin x ∧ 0 ≤ x ∧ x < 2 * evalEnv.pi :=
  phases_below_two_pi evalEnv (13176794 / 2097152) evalEnv_props.1 evalEnv_props.2.1
    evalEnv_props.2.2.1 evalEnv_props.2.2.2.1 evalEnv_props.2.2.2.2.1
    evalEnv_props.2.2.2.2.2.1 evalEnv_props.2.2.2.2.2.2.1 evalEnv_props.2.2.2.2.2.2.2 [] 0
    [(⟨Fl.fin (1 / 2), 4, Fl.fin (1 / 2), Fl.fin 44100⟩, 256),
      (⟨Fl.fin (1 / 2), 11, Fl.fin (1 / 2), Fl.fin 44100⟩, 256)]
    (by
      intro c hc
      simp only [List.mem_cons, List.mem_singleton, List.not_mem_nil, or_false] at hc
      rcases hc with h | h <;> rw [h] <;> exact ⟨44100, rfl, by norm_num⟩)

/-- C8 as stated fails: over the reals with `Real.sin` and `Real.pi` (exact
rounding), at the positive sample rate 100 Hz one frame of chord 0 (300 Hz)
from the initialised state leaves the left phase at `2π·300/100 - 2π = 4π`,
which is not below `2π`. -/
theorem phase_leaves_range_at_low_rate :
    ∃ f0 st,
      Ieee.runCallbacks
        (⟨Real.sin, Real.pi, id, 340282346638528859811704183484516925440⟩ : FloatEnv ℝ)
        [(⟨Fl.fin 0, 0, Fl.fin 0, Fl.fin 100⟩, 1)] (Ieee.startState ℝ) = some ([f0], st) ∧
      st.leftPhases[0]? = some [Fl.fin (4 * Real.pi)] ∧ (0 : ℝ) < 100 ∧
      ¬ (4 * Real.pi < 2 * Real.pi) := by
  have hpi := Real.pi_pos
  have hpi4 := Real.pi_le_four
  have hlen : (0 : Nat) < (chords ℝ).length := by
    rw [show (chords ℝ).length = 12 from rfl]; norm_num
  obtain ⟨ch, lrow, rrow, hch, hl, _, hr, _, hm, _⟩ := mixFrame_fl_sized
    (⟨Real.sin, Real.pi, id, 340282346638528859811704183484516925440⟩ : FloatEnv ℝ)
    (Fl.fin 0) (Fl.fin 0) (Fl.fin 100) hlen (sized_fl_startState (α := ℝ) [] 0)
  have hch0 : ch = ⟨[300], [310]⟩ := by
    simp only [chords, List.getElem?_cons_zero, Option.some.injEq] at hch
    exact hch.symm
  have hl0 : lrow = [Fl.fin 0] := by
    simp only [Ieee.startState, chords, List.map_cons, List.getElem?_cons_zero,
      Option.some.injEq, List.map_nil] at hl
    exact hl.symm
  subst hch0 hl0
  have hadv : Ieee.advancePhase
      (⟨Real.sin, Real.pi, id, 340282346638528859811704183484516925440⟩ : FloatEnv ℝ)
      (Fl.fin 100) 300 (Fl.fin 0) = Fl.fin (4 * Real.pi) := by
    have hsum : (Fl.fin 0 + Fl.fin (2 * Real.pi * 300) / Fl.fin 100 : Fl ℝ) =
        Fl.fin (6 * Real.pi) := by
      rw [fl_fin_div_fin (by norm_num), fl_fin_add_fin]
      congr 1
      ring
    have hst1 : FloatEnv.toFloat
        (⟨Real.sin, Real.pi, id, 340282346638528859811704183484516925440⟩ : FloatEnv ℝ)
        (Fl.fin (6 * Real.pi)) = Fl.fin (6 * Real.pi) :=
      toFloat_fin _ (by simp only [id]; linarith) (by simp only [id]; linarith)
    have hst2 : FloatEnv.toFloat
        (⟨Real.sin, Real.pi, id, 340282346638528859811704183484516925440⟩ : FloatEnv ℝ)
        (Fl.fin (6 * Real.pi - 2 * Real.pi)) = Fl.fin (6 * Real.pi - 2 * Real.pi) :=
      toFloat_fin _ (by simp only [id]; linarith) (by simp only [id]; linarith)
    unfold Ieee.advancePhase
    simp only [fl_fin_mul_fin, hsum, hst1, Fl.lt, decide_eq_true_eq]
    rw [if_pos (by linarith), fl_fin_sub_fin, hst2]
    congr 1
    ring
  have hcl : clampChord ℝ 0 = 0 := rfl
  have hst : ({ Ieee.startState ℝ with riverBuffer := [], riverBufferPos := 0 } :
      AudioSynthesizer (Fl ℝ)) = Ieee.startState ℝ := rfl
  rw [hst] at hm
  rw [runCallbacks_fl_cons]
  simp only [hcl, frameRecords_succ_of _ hm (frameRecords_zero _ _ _ _ _ _), Option.bind_eq_bind, Option.some_bind,
    Ieee.runCallbacks, List.append_nil]
  refine ⟨_, _, rfl, ?_, by norm_num, by linarith⟩
  show ((Ieee.startState ℝ).leftPhases.set 0 _)[0]? = _
  simp only [List.zipWith_cons_cons, List.zipWith_nil_right, hadv]
  simp [Ieee.startState, chords]

end FloatClaims

end HemiSync
